import Mathlib

/-!
Verification development for the zodsheriff schema validator.

The definitions below are a shallow embedding of the validation engine:
the babel-style syntax tree is an inductive type, the validators are pure
functions threading an explicit resource-manager state and issue list, and
wall-clock time is passed in explicitly (the TypeScript source reads
Date.now(); the model receives the clock as an argument).  The external
collaborators declared out of scope by the specification (parser, printer,
safe-regex oracle) are modelled as parameters or, for the printer, as an
explicit function marked as modelled from the spec.
-/

namespace ZodSheriff

/-! ### Association-list and set-list helpers (JS Map / Set semantics) -/

def lookupA {α : Type} : List (String × α) → String → Option α
  | [], _ => none
  | (a, b) :: t, k => if a = k then some b else lookupA t k

def hasKeyA {α : Type} (l : List (String × α)) (k : String) : Bool :=
  (lookupA l k).isSome

/-- JS Map.set: overwrite in place, keeping the original insertion position,
or append for a new key. -/
def setA {α : Type} : List (String × α) → String → α → List (String × α)
  | [], k, v => [(k, v)]
  | (a, b) :: t, k, v => if a = k then (k, v) :: t else (a, b) :: setA t k v

/-- JS Set.add: keep the first occurrence. -/
def insertUnique (l : List String) (v : String) : List String :=
  if v ∈ l then l else l ++ [v]

/-- Iterating a collection into a fresh JS Set keeps first occurrences. -/
def dedupKeepFirst (l : List String) : List String :=
  l.foldl insertUnique []

/-- referenceMap update: ensure the key exists and add to its set. -/
def addToSetA : List (String × List String) → String → String → List (String × List String)
  | [], k, v => [(k, [v])]
  | (a, s) :: t, k, v =>
    if a = k then (a, insertUnique s v) :: t else (a, s) :: addToSetA t k v

def keysA {α : Type} (l : List (String × α)) : List String := l.map Prod.fst

/-! ### Substring counting (JS String.split and String.match with a literal
pattern, non-overlapping, leftmost-first) -/

/-- Greedy leftmost scan counting non-overlapping occurrences; the fuel is
the scan length (one unit per consumed character position). -/
def countSubF (pat : List Char) : Nat → List Char → Nat
  | _, [] => 0
  | 0, _ :: _ => 0
  | fuel + 1, c :: t =>
    if pat.isPrefixOf (c :: t) then
      1 + countSubF pat fuel (t.drop (pat.length - 1))
    else
      countSubF pat fuel t

def countSubL (pat s : List Char) : Nat :=
  match pat with
  | [] => 0
  | p :: ps => countSubF (p :: ps) s.length s

/-- The same scan, collecting the split fragments. -/
def splitPartsF (pat : List Char) : Nat → List Char → List Char → List (List Char)
  | _, [], acc => [acc]
  | 0, s, acc => [acc ++ s]
  | fuel + 1, c :: t, acc =>
    if pat.isPrefixOf (c :: t) then
      acc :: splitPartsF pat fuel (t.drop (pat.length - 1)) []
    else
      splitPartsF pat fuel t (acc ++ [c])

def splitPartsL (pat s : List Char) : List (List Char) :=
  match pat with
  | [] => [s]
  | p :: ps => splitPartsF (p :: ps) s.length s []

/-- Number of non-overlapping occurrences of a literal pattern. -/
def countSubstr (pat s : String) : Nat :=
  countSubL pat.toList s.toList

/-- JS String.split on a literal separator. -/
def splitParts (pat s : String) : List String :=
  (splitPartsL pat.toList s.toList).map (fun l => String.mk l)

/-- JS String.includes on a literal pattern (nonempty patterns only are
exercised). -/
def containsSub (pat s : String) : Bool :=
  countSubstr pat s != 0

/-- Character-list lower-casing (String.toLowerCase). -/
def lowerChars (s : String) : List Char :=
  s.toList.map Char.toLower

/-- JS String.includes over a lower-cased receiver. -/
def containsSubChars (pat : String) (s : List Char) : Bool :=
  countSubL pat.toList s != 0

/-- JS String.startsWith over the character lists. -/
def strIsPrefixOf (p s : String) : Bool :=
  p.toList.isPrefixOf s.toList

/-! ### The syntax tree (the babel node kinds the engine dispatches on).

Function bodies are modelled expression-bodied; the validators never inspect
statements inside function bodies (validateFunctionStatements in the source
returns true unconditionally), only the async / generator flags. -/

mutual

inductive Expr where
  | ident (name : String)
  | member (obj : Expr) (propE : Expr) (computed : Bool)
  | callE (callee : Expr) (args : List Argum)
  | objectE (props : List OProp)
  | arrayE (elems : List (Option Argum))
  | arrowFE (isAsync isGenerator : Bool) (params : List Expr) (body : Expr)
  | funcE (isAsync isGenerator : Bool) (params : List Expr) (body : Expr)
  | strLit (value : String)
  | numLit (value : Int)
  | boolLit (value : Bool)
  | nullLit
  | regexLit (pattern : String)

inductive Argum where
  | pos (e : Expr)
  | spread (e : Expr)

inductive OProp where
  | oprop (computed : Bool) (key : Expr) (value : Expr)
  | omethod (mkind : String) (computed : Bool) (key : Expr)
  | ospread (e : Expr)

end

structure Declarator where
  dname : String
  dinit : Option Expr

inductive ImportSpec where
  | defaultSpec (localName : String)
  | namedSpec (localName : String)

inductive Stmt where
  | importDecl (source : String) (specifiers : List ImportSpec)
  | exportNamed (decl : Option Stmt)
  | exportDefault
  | varDecl (dkind : String) (decls : List Declarator)
  | exprStmt (e : Expr)
  | otherStmt (stype : String)

def nodeTypeOf : Expr → String
  | .ident _ => "Identifier"
  | .member _ _ _ => "MemberExpression"
  | .callE _ _ => "CallExpression"
  | .objectE _ => "ObjectExpression"
  | .arrayE _ => "ArrayExpression"
  | .arrowFE _ _ _ _ => "ArrowFunctionExpression"
  | .funcE _ _ _ _ => "FunctionExpression"
  | .strLit _ => "StringLiteral"
  | .numLit _ => "NumericLiteral"
  | .boolLit _ => "BooleanLiteral"
  | .nullLit => "NullLiteral"
  | .regexLit _ => "RegExpLiteral"

def argTypeOf : Argum → String
  | .pos e => nodeTypeOf e
  | .spread _ => "SpreadElement"

def stmtTypeOf : Stmt → String
  | .importDecl _ _ => "ImportDeclaration"
  | .exportNamed _ => "ExportNamedDeclaration"
  | .exportDefault => "ExportDefaultDeclaration"
  | .varDecl _ _ => "VariableDeclaration"
  | .exprStmt _ => "ExpressionStatement"
  | .otherStmt k => k

/-! ### Configuration (types.ts) -/

structure PropertySafetyConfig where
  allowedPrefixes : List String
  deniedPrefixes : List String
  allowedProperties : List String
  deniedProperties : List String

structure SchemaUnificationOptions where
  enabled : Bool
  unwrapArrayRoot : Bool

structure ValidationConfig where
  timeoutMs : Nat
  maxNodeCount : Nat
  maxObjectDepth : Nat
  maxChainDepth : Nat
  maxArgumentNesting : Nat
  maxPropertiesPerObject : Nat
  maxStringLength : Nat
  enableParallelProcessing : Bool
  maxConcurrentValidations : Nat
  enableCaching : Bool
  allowLoops : Bool
  allowComputedProperties : Bool
  allowTemplateExpressions : Bool
  propertySafety : PropertySafetyConfig
  addRuntimeProtection : Bool
  schemaUnification : Option SchemaUnificationOptions

def extremelySafeConfig : ValidationConfig where
  timeoutMs := 1000
  maxNodeCount := 1000
  maxObjectDepth := 3
  maxChainDepth := 3
  maxArgumentNesting := 2
  maxPropertiesPerObject := 20
  maxStringLength := 100
  enableParallelProcessing := false
  maxConcurrentValidations := 1
  enableCaching := true
  allowLoops := false
  allowComputedProperties := false
  allowTemplateExpressions := false
  propertySafety :=
    { allowedPrefixes := []
      deniedPrefixes := ["_", "$"]
      allowedProperties := ["type", "value", "items"]
      deniedProperties := ["__proto__", "constructor", "prototype"] }
  addRuntimeProtection := true
  schemaUnification := none

def mediumConfig : ValidationConfig where
  timeoutMs := 5000
  maxNodeCount := 10000
  maxObjectDepth := 5
  maxChainDepth := 5
  maxArgumentNesting := 4
  maxPropertiesPerObject := 100
  maxStringLength := 1000
  enableParallelProcessing := true
  maxConcurrentValidations := 4
  enableCaching := true
  allowLoops := true
  allowComputedProperties := false
  allowTemplateExpressions := true
  propertySafety :=
    { allowedPrefixes := []
      deniedPrefixes := ["__"]
      allowedProperties := []
      deniedProperties :=
        ["__proto__", "constructor", "prototype", "eval", "arguments",
         "process", "global", "window", "document"] }
  addRuntimeProtection := true
  schemaUnification := none

def relaxedConfig : ValidationConfig where
  timeoutMs := 30000
  maxNodeCount := 1000000
  maxObjectDepth := 10
  maxChainDepth := 10
  maxArgumentNesting := 8
  maxPropertiesPerObject := 1000
  maxStringLength := 10000
  enableParallelProcessing := true
  maxConcurrentValidations := 8
  enableCaching := true
  allowLoops := true
  allowComputedProperties := true
  allowTemplateExpressions := true
  propertySafety :=
    { allowedPrefixes := []
      deniedPrefixes := ["__"]
      allowedProperties := []
      deniedProperties := ["__proto__", "constructor"] }
  addRuntimeProtection := false
  schemaUnification := some { enabled := true, unwrapArrayRoot := true }

/-! ### Allow-lists (zod-method-names.ts) -/

def allowedZodMethods : List String :=
  ["string", "number", "boolean", "date", "bigint", "symbol",
   "undefined", "null", "void",
   "any", "unknown", "never",
   "array", "object", "union", "discriminatedUnion", "intersection",
   "tuple", "record", "map", "set", "function", "promise",
   "enum", "nativeEnum", "literal", "lazy",
   "coerce",
   "optional", "nullable", "nullish", "transform", "default", "catch",
   "preprocess",
   "custom",
   "instanceof"]

def allowedChainMethods : List String :=
  ["min", "max", "length", "email", "url", "emoji", "uuid", "cuid",
   "cuid2", "ulid", "regex", "includes", "startsWith", "endsWith",
   "datetime", "ip", "cidr", "trim", "toLowerCase", "toUpperCase",
   "date", "time", "duration", "base64", "nanoid",
   "gt", "gte", "lt", "lte", "int", "positive", "negative",
   "nonpositive", "nonnegative", "multipleOf", "finite", "safe",
   "nonempty", "size", "element",
   "optional", "nullable", "nullish", "transform", "default", "catch",
   "preprocess", "refine", "superRefine", "pipe", "brand", "readonly",
   "partial", "deepPartial", "required", "passthrough", "strict",
   "strip", "catchall", "pick", "omit", "extend", "merge", "keyof",
   "shape",
   "describe", "or", "and",
   "array", "promise"]

/-! ### Issues (reporting.ts) -/

inductive Severity where
  | error
  | warning
  | info
deriving DecidableEq

structure Issue where
  message : String
  nodeType : String
  severity : Severity
  suggestion : Option String

/-! ### Resource manager (resource-manager.ts).

Wall-clock time is passed in; a state value replaces the mutable fields.
Mutations performed before a throw persist, so each operation returns the
updated state together with the optional raised error. -/

inductive VErrorType where
  | timeoutE
  | nodeLimit
  | depthLimit
  | sizeLimit
deriving DecidableEq

structure VError where
  message : String
  etype : VErrorType

structure RMState where
  nodeCount : Nat
  startTime : Nat
  lastTimeoutCheck : Nat
  depthMap : List (Nat × Nat)

/-- Fresh manager, as built by the constructor: both timestamps are the
construction time. -/
def newRM (now : Nat) : RMState :=
  { nodeCount := 0, startTime := now, lastTimeoutCheck := now, depthMap := [] }

/-- reset(): zeroes the counter, restamps startTime, clears the depth map;
lastTimeoutCheck is untouched by the source. -/
def resetRM (s : RMState) (now : Nat) : RMState :=
  { nodeCount := 0, startTime := now, lastTimeoutCheck := s.lastTimeoutCheck
    depthMap := [] }

/-- checkTimeout(): raises when elapsed exceeds the full budget. -/
def checkTimeout (cfg : ValidationConfig) (s : RMState) (now : Nat) : Option VError :=
  if cfg.timeoutMs < now - s.startTime then
    some { message := "Validation timeout exceeded", etype := .timeoutE }
  else
    none

/-- checkTimeoutAggressive(): raises when elapsed exceeds 90 percent of the
budget.  The source compares elapsed with timeoutMs * 0.9; the comparison is
scaled by ten to stay in exact integer arithmetic. -/
def checkTimeoutAggressive (cfg : ValidationConfig) (s : RMState) (now : Nat) : Option VError :=
  if 9 * cfg.timeoutMs < 10 * (now - s.startTime) then
    some { message := "Operation approaching timeout limit", etype := .timeoutE }
  else
    none

/-- incrementNodeCount(): increment first, then the periodic timeout check,
then the node-count check. -/
def incrementNodeCount (cfg : ValidationConfig) (s : RMState) (now : Nat) :
    RMState × Option VError :=
  let s1 : RMState := { s with nodeCount := s.nodeCount + 1 }
  if 100 < now - s1.lastTimeoutCheck then
    match checkTimeout cfg s1 now with
    | some e => (s1, some e)
    | none =>
      let s2 : RMState := { s1 with lastTimeoutCheck := now }
      if cfg.maxNodeCount < s2.nodeCount then
        (s2, some { message := "Node count exceeded maximum of " ++ toString cfg.maxNodeCount
                    etype := .nodeLimit })
      else
        (s2, none)
  else
    if cfg.maxNodeCount < s1.nodeCount then
      (s1, some { message := "Node count exceeded maximum of " ++ toString cfg.maxNodeCount
                  etype := .nodeLimit })
    else
      (s1, none)

inductive DepthType where
  | objectD
  | chainD
  | argumentD

def depthTypeName : DepthType → String
  | .objectD => "object"
  | .chainD => "chain"
  | .argumentD => "argument"

def maxDepthForType (cfg : ValidationConfig) : DepthType → Nat
  | .objectD => cfg.maxObjectDepth
  | .chainD => cfg.maxChainDepth
  | .argumentD => cfg.maxArgumentNesting

def lookupN : List (Nat × Nat) → Nat → Option Nat
  | [], _ => none
  | (a, b) :: t, k => if a = k then some b else lookupN t k

def setN : List (Nat × Nat) → Nat → Nat → List (Nat × Nat)
  | [], k, v => [(k, v)]
  | (a, b) :: t, k, v => if a = k then (k, v) :: t else (a, b) :: setN t k v

/-- trackDepth(): record the depth, then fail when it exceeds the cap for
its kind. -/
def trackDepth (cfg : ValidationConfig) (s : RMState) (depth : Nat)
    (dt : DepthType) : RMState × Option VError :=
  let cur := (lookupN s.depthMap depth).getD 0
  let s1 : RMState := { s with depthMap := setN s.depthMap depth (cur + 1) }
  let maxD := maxDepthForType cfg dt
  if maxD < depth then
    (s1, some { message := depthTypeName dt ++ " nesting depth exceeded maximum of " ++ toString maxD
                etype := .depthLimit })
  else
    (s1, none)

structure ResourceStats where
  nodeCount : Nat
  executionTime : Nat
  maxDepthReached : Nat

/-- getStats(): counter, elapsed time and the maximum recorded depth key. -/
def getStats (s : RMState) (now : Nat) : ResourceStats :=
  { nodeCount := s.nodeCount
    executionTime := now - s.startTime
    maxDepthReached := (s.depthMap.map Prod.fst).foldr max 0 }

/-- withTimeoutCheck(): aggressive check, then the operation, then the
strict check.  The operation result and the two observation times are
explicit. -/
def withTimeoutCheck {α : Type} (cfg : ValidationConfig) (s : RMState)
    (preNow postNow : Nat) (op : Except VError α) : Except VError α :=
  match checkTimeoutAggressive cfg s preNow with
  | some e => .error e
  | none =>
    match op with
    | .error e => .error e
    | .ok v =>
      match checkTimeout cfg s postNow with
      | some e => .error e
      | none => .ok v

/-! ### Object validator (object-validator.ts).

The object validator is a pure function over the configuration: it neither
touches the resource manager nor the shared issue reporter; its issues are
returned in its own result (the optional node-identity cache is a
semantically transparent memoization and is not modelled). -/

structure OVResult where
  isValid : Bool
  issues : List Issue

def mkIssue (message nodeType : String) (sev : Severity)
    (sugg : Option String) : Issue :=
  { message := message, nodeType := nodeType, severity := sev, suggestion := sugg }

def checkPropName (cfg : ValidationConfig) (name nodeType : String) : OVResult :=
  if cfg.propertySafety.deniedProperties.contains name then
    { isValid := false
      issues := [mkIssue ("Property name " ++ name ++ " is not allowed") nodeType .warning none] }
  else if cfg.propertySafety.deniedPrefixes.any (fun p => strIsPrefixOf p name) then
    { isValid := false
      issues := [mkIssue ("Property name " ++ name ++ " uses a forbidden prefix") nodeType .error none] }
  else if cfg.propertySafety.allowedProperties ≠ [] ∧
      ¬ cfg.propertySafety.allowedProperties.contains name then
    { isValid := false
      issues := [mkIssue ("Property name " ++ name ++ " is not in the allowed list") nodeType .error none] }
  else
    { isValid := true, issues := [] }

def validatePropertyName (cfg : ValidationConfig) (key : Expr) : OVResult :=
  match key with
  | .ident name => checkPropName cfg name "Identifier"
  | .strLit v => checkPropName cfg v "StringLiteral"
  | k =>
    { isValid := false
      issues := [mkIssue "Property key must be an identifier or string literal" (nodeTypeOf k) .error none] }

def validateProperty (cfg : ValidationConfig) (p : OProp) : OVResult :=
  match p with
  | .oprop computed key _ =>
    if computed ∧ ¬ cfg.allowComputedProperties then
      { isValid := false
        issues := [mkIssue "Computed properties are not allowed" "ObjectProperty" .error none] }
    else
      validatePropertyName cfg key
  | .omethod mkind computed key =>
    if computed ∧ ¬ cfg.allowComputedProperties then
      { isValid := false
        issues := [mkIssue "Computed properties are not allowed" "ObjectMethod" .error none] }
    else if mkind = "get" ∨ mkind = "set" then
      { isValid := false
        issues := [mkIssue "Getter/setter methods are not allowed" "ObjectMethod" .error none] }
    else
      validatePropertyName cfg key
  | .ospread _ =>
    { isValid := false, issues := [] }

def validatePropsLoop (cfg : ValidationConfig) : List OProp → OVResult
  | [] => { isValid := true, issues := [] }
  | p :: rest =>
    match p with
    | .ospread _ =>
      { isValid := false
        issues := [mkIssue "Spread elements are not allowed in objects" "SpreadElement" .error none] }
    | _ =>
      let r := validateProperty cfg p
      if r.isValid then validatePropsLoop cfg rest
      else { isValid := false, issues := r.issues }

def validateObjectExpression (cfg : ValidationConfig) (props : List OProp)
    (depth : Nat) : OVResult :=
  if cfg.maxObjectDepth < depth then
    { isValid := false
      issues := [mkIssue ("Object exceeds maximum nesting depth of " ++ toString cfg.maxObjectDepth) "ObjectExpression" .error none] }
  else if cfg.maxPropertiesPerObject < props.length then
    { isValid := false
      issues := [mkIssue ("Object exceeds maximum property count of " ++ toString cfg.maxPropertiesPerObject) "ObjectExpression" .error none] }
  else
    validatePropsLoop cfg props

/-! ### Shared validation context for the chain and argument validators.

The chain validator and the argument validator share one resource manager
and one issue reporter; both are threaded explicitly.  A raised
ValidationError is an Except.error carrying the context at the throw point
(mutations before a throw persist in the source). -/

structure VCtx where
  rm : RMState
  issues : List Issue
  clock : Nat

def reportC (ctx : VCtx) (message nodeType : String) (sev : Severity)
    (sugg : Option String) : VCtx :=
  { ctx with issues := ctx.issues ++ [mkIssue message nodeType sev sugg] }

def ctxIncrement (cfg : ValidationConfig) (ctx : VCtx) : VCtx × Option VError :=
  let (rm', e) := incrementNodeCount cfg ctx.rm ctx.clock
  ({ ctx with rm := rm' }, e)

def ctxTrackDepth (cfg : ValidationConfig) (ctx : VCtx) (depth : Nat)
    (dt : DepthType) : VCtx × Option VError :=
  let (rm', e) := trackDepth cfg ctx.rm depth dt
  ({ ctx with rm := rm' }, e)

/-! ### Argument validator, non-recursive parts (part of argument-validator.ts) -/

structure ArgumentRule where
  minArgs : Option Nat
  maxArgs : Option Nat
  allowFunction : Bool
  allowSchema : Bool
  validateFunction : Bool
  validateRegex : Bool

/-- METHOD_RULES table. -/
def methodRules (methodName : String) : Option ArgumentRule :=
  if methodName = "refine" then
    some { minArgs := some 1, maxArgs := some 2, allowFunction := true
           allowSchema := false, validateFunction := true, validateRegex := false }
  else if methodName = "transform" then
    some { minArgs := some 1, maxArgs := some 1, allowFunction := true
           allowSchema := false, validateFunction := true, validateRegex := false }
  else if methodName = "pipe" then
    some { minArgs := some 1, maxArgs := some 1, allowFunction := false
           allowSchema := true, validateFunction := false, validateRegex := false }
  else if methodName = "regex" then
    some { minArgs := some 1, maxArgs := some 2, allowFunction := false
           allowSchema := false, validateFunction := false, validateRegex := true }
  else if methodName = "object" then
    some { minArgs := some 1, maxArgs := some 1, allowFunction := false
           allowSchema := false, validateFunction := false, validateRegex := false }
  else
    none

def isFunctionE : Expr → Bool
  | .arrowFE _ _ _ _ => true
  | .funcE _ _ _ _ => true
  | _ => false

def isFunctionA : Argum → Bool
  | .pos e => isFunctionE e
  | .spread _ => false

def validateArgumentCount (_cfg : ValidationConfig) (rules : ArgumentRule)
    (argCount : Nat) (ctx : VCtx) : VCtx × Bool :=
  match rules.minArgs with
  | some m =>
    if argCount < m then
      (reportC ctx ("Too few arguments. Expected at least " ++ toString m ++ ", got " ++ toString argCount) "CallExpression" .error none, false)
    else
      match rules.maxArgs with
      | some mx =>
        if mx < argCount then
          (reportC ctx ("Too many arguments. Expected at most " ++ toString mx ++ ", got " ++ toString argCount) "CallExpression" .error none, false)
        else
          (ctx, true)
      | none => (ctx, true)
  | none =>
    match rules.maxArgs with
    | some mx =>
      if mx < argCount then
        (reportC ctx ("Too many arguments. Expected at most " ++ toString mx ++ ", got " ++ toString argCount) "CallExpression" .error none, false)
      else
        (ctx, true)
    | none => (ctx, true)

/-- validateRegexLiteral: length bound, then the safe-regex oracle (an
external collaborator, passed as a parameter). -/
def validateRegexLiteral (cfg : ValidationConfig) (oracle : String → Bool)
    (pattern : String) (ctx : VCtx) : VCtx × Bool :=
  if cfg.maxStringLength < pattern.length then
    (reportC ctx "Regex pattern too long" "RegExpLiteral" .error none, false)
  else if ¬ oracle pattern then
    (reportC ctx "Regex pattern is not safe (as reported by safe-regex)" "RegExpLiteral" .error none, false)
  else
    (ctx, true)

def validateLiteralArgument (cfg : ValidationConfig) (oracle : String → Bool)
    (e : Expr) (ctx : VCtx) : VCtx × Bool :=
  match e with
  | .strLit v => (ctx, decide (v.length ≤ cfg.maxStringLength))
  | .regexLit p => validateRegexLiteral cfg oracle p ctx
  | _ => (ctx, true)

def isLiteralE : Expr → Bool
  | .strLit _ => true
  | .numLit _ => true
  | .boolLit _ => true
  | .regexLit _ => true
  | .nullLit => true
  | _ => false

/-- validateFunctionStatements: placeholder in the source, returns true
unconditionally. -/
def validateFunctionStatements (_body : Expr) : Bool :=
  true

def validateFunctionBody (e : Expr) (ctx : VCtx) : VCtx × Bool :=
  match e with
  | .arrowFE isAsync isGenerator _ body =>
    if isAsync then
      (reportC ctx "Async functions not allowed in schema validation" "ArrowFunctionExpression" .error none, false)
    else if isGenerator then
      (reportC ctx "Generator functions not allowed in schema validation" "ArrowFunctionExpression" .error none, false)
    else
      (ctx, validateFunctionStatements body)
  | .funcE isAsync isGenerator _ body =>
    if isAsync then
      (reportC ctx "Async functions not allowed in schema validation" "FunctionExpression" .error none, false)
    else if isGenerator then
      (reportC ctx "Generator functions not allowed in schema validation" "FunctionExpression" .error none, false)
    else
      (ctx, validateFunctionStatements body)
  | _ => (ctx, true)

def validateFunctionArgument (rules : ArgumentRule) (e : Expr) (ctx : VCtx) :
    VCtx × Bool :=
  if ¬ rules.allowFunction then
    (reportC ctx "Function arguments not allowed for this method" (nodeTypeOf e) .error none, false)
  else if rules.validateFunction then
    validateFunctionBody e ctx
  else
    (ctx, true)

/-! ### Chain validator (chain-validator.ts) and the recursive spine of the
argument validator (argument-validator.ts), mutually recursive. -/

def getMethodName : Expr → Option String
  | .ident n => some n
  | .member _ (.ident n) _ => some n
  | _ => none

def isMethodAllowed (methodName : String) : Bool :=
  allowedZodMethods.contains methodName || allowedChainMethods.contains methodName

/-- requiresArgumentValidation: the chain validator delegates argument
validation only for these three method names. -/
def requiresArgumentValidation (methodName : String) : Bool :=
  ["refine", "transform", "pipe"].contains methodName

def validateIdentifierC (name : String) (ctx : VCtx) : VCtx × Bool :=
  if name ≠ "z" then
    (reportC ctx ("Chain must start with z, found: " ++ name) "Identifier" .error none, false)
  else
    (ctx, true)

mutual

/-- Recursively validates a node in the method chain.  The source's
private helpers validateMemberExpression, validateCallExpression and the
delegated validateMethodArguments (with its catch converting a raised
resource error into a diagnostic and false) are inlined as the member and
call branches. -/
def validateChainNode (cfg : ValidationConfig) (oracle : String → Bool)
    (e : Expr) (depth : Nat) (ctx : VCtx) : VCtx × Except VError Bool :=
  match ctxIncrement cfg ctx with
  | (ctx1, some err) => (ctx1, .error err)
  | (ctx1, none) =>
    match ctxTrackDepth cfg ctx1 depth .chainD with
    | (ctx2, some err) => (ctx2, .error err)
    | (ctx2, none) =>
      match e with
      | .ident n =>
        let r := validateIdentifierC n ctx2
        (r.1, .ok r.2)
      | .member obj propE computed =>
        if computed then
          (reportC ctx2 "Computed properties not allowed in chain" "MemberExpression" .error none, .ok false)
        else
          (match validateChainNode cfg oracle obj (depth + 1) ctx2 with
           | (c, .error err) => (c, .error err)
           | (c, .ok false) => (c, .ok false)
           | (c, .ok true) =>
             match propE with
             | .ident methodName =>
               if ¬ isMethodAllowed methodName then
                 (reportC c ("Method not allowed in chain: " ++ methodName) "MemberExpression" .error (some "Use only allowed Zod methods"), .ok false)
               else
                 (c, .ok true)
             | p =>
               (reportC c "Property must be an identifier" (nodeTypeOf p) .error none, .ok false))
      | .callE callee args =>
        (match validateChainNode cfg oracle callee (depth + 1) ctx2 with
         | (c, .error err) => (c, .error err)
         | (c, .ok false) => (c, .ok false)
         | (c, .ok true) =>
           match getMethodName callee with
           | none =>
             (reportC c "Unable to determine method name" "CallExpression" .error none, .ok false)
           | some methodName =>
             if requiresArgumentValidation methodName then
               match methodRules methodName with
               | none => (c, .ok true)
               | some rules =>
                 match validateArgumentCount cfg rules args.length c with
                 | (c1, false) => (c1, .ok false)
                 | (c1, true) =>
                   match validateArgsLoop cfg oracle rules methodName args 0 c1 with
                   | (c2, .ok b) => (c2, .ok b)
                   | (c2, .error err) =>
                     (reportC c2 err.message "CallExpression" .error none, .ok false)
             else
               (c, .ok true))
      | other =>
        (reportC ctx2 ("Unexpected node type in chain: " ++ nodeTypeOf other) (nodeTypeOf other) .error none, .ok false)

/-- The arguments.every loop of validateMethodArguments. -/
def validateArgsLoop (cfg : ValidationConfig) (oracle : String → Bool)
    (rules : ArgumentRule) (methodName : String) (args : List Argum)
    (index : Nat) (ctx : VCtx) : VCtx × Except VError Bool :=
  match args with
  | [] => (ctx, .ok true)
  | a :: rest =>
    match validateArgument cfg oracle a rules methodName index ctx with
    | (ctx1, .error err) => (ctx1, .error err)
    | (ctx1, .ok false) => (ctx1, .ok false)
    | (ctx1, .ok true) =>
      validateArgsLoop cfg oracle rules methodName rest (index + 1) ctx1

/-- validateArgument; the array branch inlines validateArrayArgument's
size check before the element loop. -/
def validateArgument (cfg : ValidationConfig) (oracle : String → Bool)
    (arg : Argum) (rules : ArgumentRule) (methodName : String) (index : Nat)
    (ctx : VCtx) : VCtx × Except VError Bool :=
  match ctxIncrement cfg ctx with
  | (ctx1, some err) => (ctx1, .error err)
  | (ctx1, none) =>
    if methodName = "refine" ∧ index = 0 ∧ ¬ isFunctionA arg then
      (reportC ctx1 ("The first argument to " ++ methodName ++ " must be a function") (argTypeOf arg) .error none, .ok false)
    else
      match arg with
      | .pos e =>
        match e with
        | .arrowFE a g params body =>
          let r := validateFunctionArgument rules (.arrowFE a g params body) ctx1
          (r.1, .ok r.2)
        | .funcE a g params body =>
          let r := validateFunctionArgument rules (.funcE a g params body) ctx1
          (r.1, .ok r.2)
        | .objectE props =>
          if methodName = "refine" ∧ index = 0 then
            (ctx1, .ok false)
          else
            (ctx1, .ok (validateObjectExpression cfg props 0).isValid)
        | .arrayE elems =>
          if cfg.maxPropertiesPerObject < elems.length then
            (reportC ctx1 ("Array exceeds maximum size of " ++ toString cfg.maxPropertiesPerObject) "ArrayExpression" .error none, .ok false)
          else
            validateArrayLoop cfg oracle elems ctx1
        | .strLit v =>
          let r := validateLiteralArgument cfg oracle (.strLit v) ctx1
          (r.1, .ok r.2)
        | .numLit v =>
          let r := validateLiteralArgument cfg oracle (.numLit v) ctx1
          (r.1, .ok r.2)
        | .boolLit v =>
          let r := validateLiteralArgument cfg oracle (.boolLit v) ctx1
          (r.1, .ok r.2)
        | .regexLit p =>
          let r := validateLiteralArgument cfg oracle (.regexLit p) ctx1
          (r.1, .ok r.2)
        | .nullLit =>
          let r := validateLiteralArgument cfg oracle .nullLit ctx1
          (r.1, .ok r.2)
        | .ident _ =>
          (ctx1, .ok true)
        | .callE (.member (.ident "z") cprop _) _ =>
          (match cprop with
           | .ident p =>
             if allowedZodMethods.contains p || allowedChainMethods.contains p then
               (ctx1, .ok true)
             else
               (reportC ctx1 ("Unexpected argument type for method " ++ methodName ++ ": CallExpression") "CallExpression" .error none, .ok false)
           | _ => (ctx1, .ok false))
        | .callE (.ident "z") _ =>
          (ctx1, .ok true)
        | .callE _ _ =>
          (reportC ctx1 ("Unexpected argument type for method " ++ methodName ++ ": CallExpression") "CallExpression" .error none, .ok false)
        | .member _ _ _ =>
          (reportC ctx1 ("Unexpected argument type for method " ++ methodName ++ ": MemberExpression") "MemberExpression" .error none, .ok false)
      | .spread _ =>
        (reportC ctx1 ("Unexpected argument type for method " ++ methodName ++ ": SpreadElement") "SpreadElement" .error none, .ok false)

/-- The elements.every loop of validateArrayArgument; sparse elements are
skipped. -/
def validateArrayLoop (cfg : ValidationConfig) (oracle : String → Bool)
    (elems : List (Option Argum)) (ctx : VCtx) : VCtx × Except VError Bool :=
  match elems with
  | [] => (ctx, .ok true)
  | none :: rest => validateArrayLoop cfg oracle rest ctx
  | some a :: rest =>
    match validateArgument cfg oracle a
        { minArgs := none, maxArgs := none, allowFunction := false
          allowSchema := false, validateFunction := false, validateRegex := false }
        "array" 0 ctx with
    | (ctx1, .error err) => (ctx1, .error err)
    | (ctx1, .ok false) => (ctx1, .ok false)
    | (ctx1, .ok true) => validateArrayLoop cfg oracle rest ctx1

end

/-- validateMethodArguments: the ArgumentValidator entry, with the catch
turning a raised resource error into a diagnostic and false.  (The chain
validator's call branch inlines this same logic.) -/
def validateMethodArguments (cfg : ValidationConfig) (oracle : String → Bool)
    (methodName : String) (args : List Argum) (ctx : VCtx) : VCtx × Bool :=
  match methodRules methodName with
  | none => (ctx, true)
  | some rules =>
    match validateArgumentCount cfg rules args.length ctx with
    | (ctx1, false) => (ctx1, false)
    | (ctx1, true) =>
      match validateArgsLoop cfg oracle rules methodName args 0 ctx1 with
      | (ctx2, .ok b) => (ctx2, b)
      | (ctx2, .error err) =>
        (reportC ctx2 err.message "CallExpression" .error none, false)

/-- validateChain: the public entry, catching raised resource errors and
converting them into an error diagnostic. -/
def validateChain (cfg : ValidationConfig) (oracle : String → Bool)
    (e : Expr) (ctx : VCtx) : VCtx × Bool :=
  match validateChainNode cfg oracle e 0 ctx with
  | (ctx1, .ok b) => (ctx1, b)
  | (ctx1, .error err) =>
    (reportC ctx1 err.message (nodeTypeOf e) .error none, false)

/-! ### Schema orchestrator (the SchemaValidator with statement
classification, removal, auto-export, root-name tracking and optional
grouping).

Parsing is external; the entry point receives the parsed program (a list
of top-level statements).  The babel traversal visits each statement once
in source order; a declaration wrapped into a fresh export is not
re-validated (the second visit of the requeued node is observationally
identical apart from extra node-count bookkeeping). -/

def isSchemaDeclaration (d : Declarator) : Bool :=
  match d.dinit with
  | none => false
  | some ini =>
    if containsSubChars "schema" (lowerChars d.dname) then
      true
    else
      match ini with
      | .callE _ _ => true
      | .member (.ident "z") _ _ => true
      | _ => false

def importSpecIsZ : ImportSpec → Bool
  | .defaultSpec n => n = "z"
  | .namedSpec n => n = "z"

def stmtHasZodImport : Stmt → Bool
  | .importDecl src specs => src = "zod" && specs.any importSpecIsZ
  | _ => false

def hasZodImport (prog : List Stmt) : Bool :=
  prog.any stmtHasZodImport

def isUndefinedIdent : Expr → Bool
  | .ident n => n = "undefined"
  | _ => false

structure PassState where
  ctx : VCtx
  hasValidSchemas : Bool
  hasErrors : Bool
  rootSchemaNames : List String

def psReport (st : PassState) (message nodeType : String) (sev : Severity)
    (sugg : Option String) : PassState :=
  { st with ctx := reportC st.ctx message nodeType sev sugg }

/-- The declarator loop of validateVariableDeclaration. -/
def validateDeclarators (cfg : ValidationConfig) (oracle : String → Bool) :
    List Declarator → PassState → Bool → PassState × Bool
  | [], st, acc => (st, acc)
  | d :: rest, st, acc =>
    match d.dinit with
    | none =>
      let st1 := psReport st "Schema declaration must have an initializer" "VariableDeclarator" .error none
      validateDeclarators cfg oracle rest st1 false
    | some ini =>
      if isUndefinedIdent ini then
        let st1 := psReport st "Schema declaration must have an initializer" "VariableDeclarator" .error none
        validateDeclarators cfg oracle rest st1 false
      else if isSchemaDeclaration d then
        let (ctx1, ok) := validateChain cfg oracle ini st.ctx
        if ok then
          let st1 : PassState :=
            { st with
                ctx := ctx1
                rootSchemaNames := insertUnique st.rootSchemaNames d.dname }
          validateDeclarators cfg oracle rest st1 acc
        else
          validateDeclarators cfg oracle rest { st with ctx := ctx1 } false
      else
        validateDeclarators cfg oracle rest st acc

def validateVariableDeclaration (cfg : ValidationConfig)
    (oracle : String → Bool) (dkind : String) (decls : List Declarator)
    (st : PassState) : PassState × Bool :=
  if dkind ≠ "const" then
    (psReport st "Schema declarations must use const" "VariableDeclaration" .error none, false)
  else
    validateDeclarators cfg oracle decls st true

/-- One top-level (or export-wrapped) statement: the ImportDeclaration,
VariableDeclaration and Statement visitors plus the removal decision.
Returns the surviving (possibly export-wrapped) statement, or none. -/
def processStmt (cfg : ValidationConfig) (oracle : String → Bool)
    (parentIsExport : Bool) (st : PassState) :
    Stmt → PassState × Option Stmt
  | .importDecl src specs =>
    if src ≠ "zod" then
      let st1 := psReport st ("Invalid import from " ++ src ++ ". Only zod imports are allowed.") "ImportDeclaration" .error none
      ({ st1 with hasErrors := true }, none)
    else
      (st, some (.importDecl src specs))
  | .varDecl dkind decls =>
    match validateVariableDeclaration cfg oracle dkind decls st with
    | (st1, false) => ({ st1 with hasErrors := true }, none)
    | (st1, true) =>
      if decls.any isSchemaDeclaration then
        let st2 : PassState := { st1 with hasValidSchemas := true }
        if parentIsExport then
          (st2, some (.varDecl dkind decls))
        else
          (st2, some (.exportNamed (some (.varDecl dkind decls))))
      else
        (st1, none)
  | .exportNamed inner =>
    match inner with
    | none => (st, some (.exportNamed none))
    | some innerS =>
      let (st1, r) := processStmt cfg oracle true st innerS
      (st1, some (.exportNamed r))
  | .exportDefault => (st, some .exportDefault)
  | .exprStmt e =>
    let st1 := psReport st ("Invalid statement type: " ++ stmtTypeOf (.exprStmt e)) (stmtTypeOf (.exprStmt e)) .error none
    ({ st1 with hasErrors := true }, none)
  | .otherStmt k =>
    let st1 := psReport st ("Invalid statement type: " ++ k) k .error none
    ({ st1 with hasErrors := true }, none)

def processStmts (cfg : ValidationConfig) (oracle : String → Bool)
    (st : PassState) : List Stmt → PassState × List Stmt
  | [] => (st, [])
  | s :: rest =>
    let (st1, r) := processStmt cfg oracle false st s
    let (st2, out) := processStmts cfg oracle st1 rest
    (st2, match r with
          | some s' => s' :: out
          | none => out)

/-! ### Dependency analyzer (schema-dependencies.ts).

visitNode walks every child node; the identifier scan of a declarator's
initializer therefore sees identifiers in any position (member properties,
object keys, function parameters, nested spread arguments). -/

mutual

def collectIdents : Expr → List String
  | .ident n => [n]
  | .member o p _ => collectIdents o ++ collectIdents p
  | .callE c args => collectIdents c ++ collectIdentsArgs args
  | .objectE props => collectIdentsProps props
  | .arrayE elems => collectIdentsElems elems
  | .arrowFE _ _ params body => collectIdentsList params ++ collectIdents body
  | .funcE _ _ params body => collectIdentsList params ++ collectIdents body
  | .strLit _ => []
  | .numLit _ => []
  | .boolLit _ => []
  | .nullLit => []
  | .regexLit _ => []

def collectIdentsList : List Expr → List String
  | [] => []
  | e :: t => collectIdents e ++ collectIdentsList t

def collectIdentsArgs : List Argum → List String
  | [] => []
  | .pos e :: t => collectIdents e ++ collectIdentsArgs t
  | .spread e :: t => collectIdents e ++ collectIdentsArgs t

def collectIdentsProps : List OProp → List String
  | [] => []
  | .oprop _ k v :: t => collectIdents k ++ collectIdents v ++ collectIdentsProps t
  | .omethod _ _ k :: t => collectIdents k ++ collectIdentsProps t
  | .ospread e :: t => collectIdents e ++ collectIdentsProps t

def collectIdentsElems : List (Option Argum) → List String
  | [] => []
  | none :: t => collectIdentsElems t
  | some (.pos e) :: t => collectIdents e ++ collectIdentsElems t
  | some (.spread e) :: t => collectIdents e ++ collectIdentsElems t

end

/-- Every variable declarator of the tree, in traversal order. -/
def collectDeclStmt : Stmt → List (String × Option Expr)
  | .varDecl _ ds => ds.map (fun d => (d.dname, d.dinit))
  | .exportNamed (some s) => collectDeclStmt s
  | _ => []

def collectDeclarators : List Stmt → List (String × Option Expr)
  | [] => []
  | s :: rest => collectDeclStmt s ++ collectDeclarators rest

structure SchemaDepInfo where
  deps : List String
  sinit : Option Expr

structure DepState where
  depMap : List (String × SchemaDepInfo)
  refMap : List (String × List String)

def declIdents (ini : Option Expr) : List String :=
  match ini with
  | none => []
  | some e => collectIdents e

/-- The VariableDeclarator visitor of analyzeDependencies: dependencies are
the identifiers of the initializer that differ from the declarator's own
name and are keys of the map collected so far. -/
def analyzeStep (st : DepState) (nm : String) (ini : Option Expr) : DepState :=
  let deps := dedupKeepFirst
    ((declIdents ini).filter (fun n => n ≠ nm ∧ hasKeyA st.depMap n))
  { depMap := setA st.depMap nm { deps := deps, sinit := ini }
    refMap := deps.foldl (fun rm d => addToSetA rm d nm) st.refMap }

def analyzeList (st : DepState) : List (String × Option Expr) → DepState
  | [] => st
  | (nm, ini) :: rest => analyzeList (analyzeStep st nm ini) rest

def analyzeDependencies (stmts : List Stmt) : DepState :=
  analyzeList { depMap := [], refMap := [] } (collectDeclarators stmts)

def depsOfD (st : DepState) (n : String) : List String :=
  match lookupA st.depMap n with
  | some i => i.deps
  | none => []

def refsOf (st : DepState) (n : String) : List String :=
  match lookupA st.refMap n with
  | some s => s
  | none => []

/-- collectConnectedSchemas explores direct dependencies first, then
reverse references. -/
def adjA (st : DepState) (n : String) : List String :=
  depsOfD st n ++ refsOf st n

/-- collectConnectedSchemas: mark the schema visited and in the group, then
explore its direct dependencies followed by its reverse references.  The
nesting of the source recursion is bounded by the number of collected
schemas (every fresh visit grows the visited set), so the explicit fuel is
one more than the key count. -/
def collectConnected (st : DepState) : Nat → String → List String × List String →
    List String × List String
  | 0, _, vg => vg
  | fuel + 1, nm, vg =>
    if nm ∈ vg.1 then vg
    else (adjA st nm).foldl (fun vg' x => collectConnected st fuel x vg')
      (vg.1 ++ [nm], vg.2 ++ [nm])

def dfsFuel (st : DepState) : Nat :=
  st.depMap.length + 1

def groupsLoop (st : DepState) (keys : List String)
    (visited : List String) (acc : List (List String)) : List (List String) :=
  match keys with
  | [] => acc
  | k :: rest =>
    if k ∈ visited then groupsLoop st rest visited acc
    else
      let vg := collectConnected st (dfsFuel st) k (visited, [])
      groupsLoop st rest vg.1 (acc ++ [vg.2])

def getIndependentSchemaGroups (st : DepState) : List (List String) :=
  groupsLoop st (keysA st.depMap) [] []

/-! ### Group rendering (generateCombinedSchema of schema-dependencies.ts) -/

/-- One inliner step on an argument. -/
def replaceRefsArg (f : Expr → Expr) : Argum → Argum
  | .pos e => .pos (f e)
  | .spread e => .spread (f e)

/-- One inliner step on an object property. -/
def replaceRefsProp (f : Expr → Expr) : OProp → OProp
  | .oprop c k v => .oprop c (f k) (f v)
  | .omethod mk c k => .omethod mk c (f k)
  | .ospread e => .ospread (f e)

/-- The inliner substitutes every identifier bound in the group map by a
recursively inlined copy of that schema's initializer, deep-copying every
other node.  The recursion of the source is unbounded (it terminates only
on acyclic reference graphs and otherwise aborts by overrunning the
runtime stack); the model bounds every level of the recursion with an
explicit fuel that the caller chooses large enough for acyclic input. -/
def replaceRefs (map : List (String × Option Expr)) : Nat → Expr → Expr
  | 0, e => e
  | fuel + 1, e =>
    match e with
    | .ident n =>
      (match lookupA map n with
       | some (some ini) => replaceRefs map fuel ini
       | _ => .ident n)
    | .member o p c => .member (replaceRefs map fuel o) (replaceRefs map fuel p) c
    | .callE c args =>
      .callE (replaceRefs map fuel c) (args.map (replaceRefsArg (replaceRefs map fuel)))
    | .objectE props => .objectE (props.map (replaceRefsProp (replaceRefs map fuel)))
    | .arrayE elems =>
      .arrayE (elems.map (fun el => el.map (replaceRefsArg (replaceRefs map fuel))))
    | .arrowFE a g params body =>
      .arrowFE a g (params.map (replaceRefs map fuel)) (replaceRefs map fuel body)
    | .funcE a g params body =>
      .funcE a g (params.map (replaceRefs map fuel)) (replaceRefs map fuel body)
    | .strLit v => .strLit v
    | .numLit v => .numLit v
    | .boolLit v => .boolLit v
    | .nullLit => .nullLit
    | .regexLit p => .regexLit p

/-! ### Printer.

Modelled from the spec: the Printer is an external collaborator that
serializes a (possibly edited) syntax tree back to source text; the model
prints the compact JavaScript expression forms.  Only identifier, member
and call shapes are exercised by the theorems below. -/

mutual

def printExpr : Expr → String
  | .ident n => n
  | .member o p false => printExpr o ++ "." ++ printExpr p
  | .member o p true => printExpr o ++ "[" ++ printExpr p ++ "]"
  | .callE c args => printExpr c ++ "(" ++ printArgs args ++ ")"
  | .objectE props => "\x7b " ++ printProps props ++ " \x7d"
  | .arrayE elems => "[" ++ printElems elems ++ "]"
  | .arrowFE _ _ params body =>
    "(" ++ printExprs params ++ ") => " ++ printExpr body
  | .funcE _ _ params body =>
    "function (" ++ printExprs params ++ ") " ++ printExpr body
  | .strLit v => "\"" ++ v ++ "\""
  | .numLit v => toString v
  | .boolLit true => "true"
  | .boolLit false => "false"
  | .nullLit => "null"
  | .regexLit p => "/" ++ p ++ "/"

def printExprs : List Expr → String
  | [] => ""
  | [e] => printExpr e
  | e :: t => printExpr e ++ ", " ++ printExprs t

def printArgs : List Argum → String
  | [] => ""
  | [.pos e] => printExpr e
  | [.spread e] => "..." ++ printExpr e
  | .pos e :: t => printExpr e ++ ", " ++ printArgs t
  | .spread e :: t => "..." ++ printExpr e ++ ", " ++ printArgs t

def printProps : List OProp → String
  | [] => ""
  | [.oprop _ k v] => printExpr k ++ ": " ++ printExpr v
  | [.omethod _ _ k] => printExpr k ++ "() \x7b\x7d"
  | [.ospread e] => "..." ++ printExpr e
  | .oprop _ k v :: t => printExpr k ++ ": " ++ printExpr v ++ ", " ++ printProps t
  | .omethod _ _ k :: t => printExpr k ++ "() \x7b\x7d, " ++ printProps t
  | .ospread e :: t => "..." ++ printExpr e ++ ", " ++ printProps t

def printElems : List (Option Argum) → String
  | [] => ""
  | [none] => ""
  | [some (.pos e)] => printExpr e
  | [some (.spread e)] => "..." ++ printExpr e
  | none :: t => ", " ++ printElems t
  | some (.pos e) :: t => printExpr e ++ ", " ++ printElems t
  | some (.spread e) :: t => "..." ++ printExpr e ++ ", " ++ printElems t

end

/-! ### Array-root unwrap and combined schema generation -/

/-- The top-level unwrap condition of generateCombinedSchema: the rendered
expression re-parses as a single expression statement whose expression is a
call of z.array with exactly one non-spread argument; the call is then
replaced by that argument.  (The printer and re-parser compose to the
identity on expression trees.) -/
def unwrapArrayRootExpr (e : Expr) : Expr :=
  match e with
  | .callE (.member (.ident "z") (.ident "array") _) [.pos inner] => inner
  | _ => e

def unwrapFlag (cfg : ValidationConfig) : Bool :=
  match cfg.schemaUnification with
  | some u => u.unwrapArrayRoot
  | none => false

mutual

/-- Node-count size of an expression tree (for fuel bounds). -/
def esize : Expr → Nat
  | .ident _ => 1
  | .member o p _ => 1 + esize o + esize p
  | .callE c args => 1 + esize c + esizeArgs args
  | .objectE props => 1 + esizeProps props
  | .arrayE elems => 1 + esizeElems elems
  | .arrowFE _ _ params body => 1 + esizeList params + esize body
  | .funcE _ _ params body => 1 + esizeList params + esize body
  | .strLit _ => 1
  | .numLit _ => 1
  | .boolLit _ => 1
  | .nullLit => 1
  | .regexLit _ => 1

def esizeList : List Expr → Nat
  | [] => 0
  | e :: t => esize e + esizeList t

def esizeArgs : List Argum → Nat
  | [] => 0
  | .pos e :: t => 1 + esize e + esizeArgs t
  | .spread e :: t => 1 + esize e + esizeArgs t

def esizeProps : List OProp → Nat
  | [] => 0
  | .oprop _ k v :: t => 1 + esize k + esize v + esizeProps t
  | .omethod _ _ k :: t => 1 + esize k + esizeProps t
  | .ospread e :: t => 1 + esize e + esizeProps t

def esizeElems : List (Option Argum) → Nat
  | [] => 0
  | none :: t => 1 + esizeElems t
  | some (.pos e) :: t => 1 + esize e + esizeElems t
  | some (.spread e) :: t => 1 + esize e + esizeElems t

end

def osize : Option Expr → Nat
  | none => 0
  | some e => esize e

/-- Node-count size of a call argument (for fuel and induction bounds). -/
def asize : Argum → Nat
  | .pos e => esize e
  | .spread e => esize e

/-- An inlining-fuel bound that covers every acyclic input: a substitution
chain visits at most every schema of the map once, and between
substitutions the recursion descends structurally. -/
def inlineFuel (map : List (String × Option Expr)) (rinit : Expr) : Nat :=
  (map.length + 1) *
    (esize rinit + map.foldl (fun acc p => acc + osize p.2) 0 + 1)

/-- generateCombinedSchema: pick the root (a member with outgoing and no
incoming edges, or the first), inline every group member's initializer into
it, optionally unwrap an array root, and print. -/
def generateCombinedSchema (cfg : ValidationConfig) (st : DepState)
    (group : List String) : String :=
  let rootSchema :=
    match group.find? (fun n => (depsOfD st n).length ≠ 0 ∧ (refsOf st n).length = 0) with
    | some n => n
    | none => group.headD ""
  let schemaMap : List (String × Option Expr) :=
    group.foldl (fun m n =>
      match lookupA st.depMap n with
      | some i => setA m n i.sinit
      | none => m) []
  match lookupA st.depMap rootSchema with
  | none => ""
  | some info =>
    match info.sinit with
    | none => ""
    | some rinit =>
      let inlined := replaceRefs schemaMap (inlineFuel schemaMap rinit) rinit
      let final := if unwrapFlag cfg then unwrapArrayRootExpr inlined else inlined
      printExpr final

/-! ### Schema groups (schema-groups.ts) -/

structure GroupMetrics where
  schemaCount : Nat
  totalLines : Nat
  complexity : ℚ

structure SchemaGroup where
  schemaNames : List String
  code : String
  metrics : GroupMetrics

/-- calculateGroupMetrics: the complexity heuristic uses the length of the
split on "z." (the number of fragments) plus weighted pattern-match counts
for "object(" and "array(". -/
def calculateGroupMetrics (code : String) (schemaCount : Nat) : GroupMetrics :=
  { schemaCount := schemaCount
    totalLines := (splitParts "\n" code).length
    complexity :=
      ((splitParts "z." code).length : ℚ)
        + (countSubstr "object(" code : ℚ) * 2
        + (countSubstr "array(" code : ℚ) * (3 / 2) }

/-- Comparator order of sortSchemaGroups: descending by schema count, then
complexity, then total lines. -/
def groupBeforeOrEqual (a b : SchemaGroup) : Bool :=
  if a.metrics.schemaCount ≠ b.metrics.schemaCount then
    b.metrics.schemaCount ≤ a.metrics.schemaCount
  else if a.metrics.complexity ≠ b.metrics.complexity then
    b.metrics.complexity ≤ a.metrics.complexity
  else
    b.metrics.totalLines ≤ a.metrics.totalLines

def insertSortedGroup (x : SchemaGroup) : List SchemaGroup → List SchemaGroup
  | [] => [x]
  | y :: t => if groupBeforeOrEqual x y then x :: y :: t else y :: insertSortedGroup x t

def sortSchemaGroups (groups : List SchemaGroup) : List SchemaGroup :=
  groups.foldr insertSortedGroup []

/-- generateSchemaGroups (orchestrator): analyze, group, render, measure,
sort. -/
def generateSchemaGroupsM (cfg : ValidationConfig) (stmts : List Stmt) :
    List SchemaGroup :=
  let st := analyzeDependencies stmts
  let groups := getIndependentSchemaGroups st
  sortSchemaGroups (groups.map (fun g =>
    let code := generateCombinedSchema cfg st g
    { schemaNames := g, code := code
      metrics := calculateGroupMetrics code g.length }))

/-! ### Top-level entry (validateSchema of the orchestrator, on the parsed
program) -/

structure AstValidationResult where
  isValid : Bool
  cleanedStmts : List Stmt
  issues : List Issue
  rootSchemaNames : List String
  schemaGroups : Option (List SchemaGroup)

/-- validateSchema on an already-parsed program: reset, import check, the
classification traversal with removal and auto-export, then optional
grouping over the cleaned tree.  cleanedStmts is the tree printed into
cleaned_code (empty when no valid schema declaration survived). -/
def validateSchemaAst (cfg : ValidationConfig) (oracle : String → Bool)
    (clock : Nat) (prog : List Stmt) : AstValidationResult :=
  let ctx0 : VCtx := { rm := resetRM (newRM clock) clock, issues := [], clock := clock }
  let importOk := hasZodImport prog
  let ctx1 := if importOk then ctx0
              else reportC ctx0 "Missing z import from zod" "File" .error none
  let st0 : PassState :=
    { ctx := ctx1, hasValidSchemas := false, hasErrors := !importOk
      rootSchemaNames := [] }
  let (st1, kept) := processStmts cfg oracle st0 prog
  let cleaned := if st1.hasValidSchemas then kept else []
  let doGroups := st1.hasValidSchemas &&
    (match cfg.schemaUnification with
     | some u => u.enabled
     | none => false)
  { isValid := !st1.hasErrors
    cleanedStmts := cleaned
    issues := st1.ctx.issues
    rootSchemaNames := st1.rootSchemaNames
    schemaGroups := if doGroups then some (generateSchemaGroupsM cfg cleaned) else none }

/-! ### Specification-side predicates (stated from the specification's words,
for comparison with the implementation) -/

/-- The property-safety policy as the specification words it: the name is
not denied, no denied prefix is a prefix of it, and, if the whitelist is
non-empty, the name is a member of it. -/
def namePolicyOK (ps : PropertySafetyConfig) (name : String) : Prop :=
  ¬ name ∈ ps.deniedProperties
    ∧ (∀ pre ∈ ps.deniedPrefixes, ¬ strIsPrefixOf pre name = true)
    ∧ (ps.allowedProperties = [] ∨ name ∈ ps.allowedProperties)

/-- The key name the object validator inspects for a property. -/
def propKeyName : OProp → Option String
  | .oprop _ (.ident n) _ => some n
  | .oprop _ (.strLit v) _ => some v
  | .omethod _ _ (.ident n) => some n
  | .omethod _ _ (.strLit v) => some v
  | _ => none

/-- The reference-graph edge as claim C6 words it, with no regard to
declaration order: an identifier occurring in the initializer of the
declarator of a names another collected declarator b. -/
def ClaimEdge (decls : List (String × Option Expr)) (a b : String) : Prop :=
  a ≠ b ∧ ∃ i j ai bi, decls.get? i = some (a, ai) ∧ decls.get? j = some (b, bi) ∧
    b ∈ declIdents ai

/-- The reference edge the implementation actually records: the referenced
declarator must have been collected strictly earlier. -/
def BackEdge (decls : List (String × Option Expr)) (a b : String) : Prop :=
  b ≠ a ∧ ∃ i j ai bi, i < j ∧ decls.get? i = some (b, bi) ∧
    decls.get? j = some (a, ai) ∧ b ∈ declIdents ai

/-- Undirected version of the backward-reference edge. -/
def SymEdge (decls : List (String × Option Expr)) (a b : String) : Prop :=
  BackEdge decls a b ∨ BackEdge decls b a

/-- Adjacency in the analyzer's recorded graph: b is a direct dependency or
a reverse reference of a. -/
def AdjP (st : DepState) (a b : String) : Prop :=
  b ∈ adjA st a

/-- The analyzer-state invariant after collecting the declarator prefix
`done`: the key list is the declared names in order, the dependency map
records exactly the backward references, and the reference map is its exact
reverse. -/
def DepInv (done : List (String × Option Expr)) (s : DepState) : Prop :=
  keysA s.depMap = done.map Prod.fst
    ∧ (∀ a b : String,
        (∃ info, lookupA s.depMap a = some info ∧ b ∈ info.deps) ↔ BackEdge done a b)
    ∧ (∀ a b : String,
        (∃ refs, lookupA s.refMap a = some refs ∧ b ∈ refs) ↔
          (∃ info, lookupA s.depMap b = some info ∧ a ∈ info.deps))

/-- Well-formedness of a surviving top-level statement per claim C4: no
bare variable declaration; an export-wrapped declaration is const and every
schema-like declarator's initializer is accepted by the chain validator. -/
def ExportedDeclOK (cfg : ValidationConfig) (oracle : String → Bool) : Stmt → Prop
  | .varDecl k ds =>
    k = "const" ∧ ∀ d ∈ ds, isSchemaDeclaration d = true →
      ∃ e ctx ctx', d.dinit = some e ∧ validateChain cfg oracle e ctx = (ctx', true)
  | .exportNamed (some inner) => ExportedDeclOK cfg oracle inner
  | _ => True

def SurvivorOK (cfg : ValidationConfig) (oracle : String → Bool) : Stmt → Prop
  | .varDecl _ _ => False
  | .exportNamed (some inner) => ExportedDeclOK cfg oracle inner
  | _ => True

/-- An error-severity issue is present. -/
def hasErrorIssue (issues : List Issue) : Prop :=
  ∃ i ∈ issues, i.severity = Severity.error

/-! ### Concrete fixtures used by the counterexamples and witnesses -/

def oracleT : String → Bool := fun _ => true

def oracleF : String → Bool := fun _ => false

def freshCtx (clock : Nat) : VCtx :=
  { rm := resetRM (newRM clock) clock, issues := [], clock := clock }

def importZod : Stmt := .importDecl "zod" [.namedSpec "z"]

/-- z.m(args) -/
def zc (m : String) (args : List Argum) : Expr :=
  .callE (.member (.ident "z") (.ident m) false) args

/-- recv.m(args) -/
def chainCall (recv : Expr) (m : String) (args : List Argum) : Expr :=
  .callE (.member recv (.ident m) false) args

def zStr : Expr := zc "string" []

/-- A configuration with a tiny node budget, in the style of the test
overrides. -/
def tinyConfig : ValidationConfig :=
  { relaxedConfig with maxNodeCount := 2 }

/-- n increments of a freshly reset manager at a constant clock. -/
def rmIter (cfg : ValidationConfig) (now : Nat) : Nat → RMState
  | 0 => resetRM (newRM now) now
  | n + 1 => (incrementNodeCount cfg (rmIter cfg now n) now).1

/-- z.string().regex(lit). -/
def regexCallE (p : String) : Expr :=
  chainCall zStr "regex" [.pos (.regexLit p)]

/-- The object literal with a denied-prefix property name. -/
def badObjDecl : Stmt :=
  .varDecl "const"
    [⟨"mySchema", some (zc "object"
        [.pos (.objectE [.oprop false (.ident "__bad") zStr])])⟩]

def progC1 : List Stmt := [importZod, badObjDecl]

/-- const mySchema = z; -/
def progC10 : List Stmt :=
  [importZod, .varDecl "const" [⟨"mySchema", some (.ident "z")⟩]]

/-- A pipe call whose argument is an object literal with a denied property
name; the argument validator consults the object validator but drops its
diagnostics. -/
def progC3 : List Stmt :=
  [importZod,
   .varDecl "const"
     [⟨"mySchema", some (zc "pipe"
        [.pos (.objectE [.oprop false (.ident "constructor") (.numLit 1)])])⟩]]

/-- A declaration mixing a schema declarator with a non-schema declarator. -/
def progC4 : List Stmt :=
  [importZod,
   .varDecl "const" [⟨"userSchema", some zStr⟩, ⟨"other", some (.numLit 42)⟩]]

/-- Forward reference: aSchema references bSchema which is collected later. -/
def aInitC6 : Expr :=
  zc "object" [.pos (.objectE [.oprop false (.ident "x") (.ident "bSchema")])]

def stmtsC6 : List Stmt :=
  [.varDecl "const" [⟨"aSchema", some aInitC6⟩],
   .varDecl "const" [⟨"bSchema", some zStr⟩]]

/-- const arrayRootSchema = z.array(z.array(z.string())); as a cleaned
(export-wrapped) tree. -/
def stmtsC8 : List Stmt :=
  [.exportNamed (some (.varDecl "const"
    [⟨"arrayRootSchema", some (zc "array" [.pos (zc "array" [.pos zStr])])⟩]))]

/-! ## Theorems -/

/-! ### C5: node-count accounting -/

/-- C5: the claim states that the increment that would exceed the cap
aborts instead of leaving the counter above the cap, and that stats() never
reports node_count above max_node_count.  In the code the counter is
incremented before the check: the third increment under a cap of two raises
NodeLimit but leaves the counter, and the stats report, at three. -/
theorem C5_counterexample :
    (incrementNodeCount tinyConfig (rmIter tinyConfig 0 2) 0).2 =
      some { message := "Node count exceeded maximum of 2", etype := .nodeLimit }
    ∧ (getStats (rmIter tinyConfig 0 3) 0).nodeCount = 3
    ∧ tinyConfig.maxNodeCount = 2 := by
  refine ⟨?_, ?_, ?_⟩ <;> rfl

/-- C5 (amended): incrementNodeCount increments first and checks second:
the new count is always the old count plus one; a call that returns without
an error leaves the counter (and the stats report) within the cap; and,
when the periodic timeout check does not fire, an error is raised exactly
when the incremented count exceeds the cap. -/
theorem C5_amended (cfg : ValidationConfig) (s : RMState) (now : Nat) :
    (incrementNodeCount cfg s now).1.nodeCount = s.nodeCount + 1
    ∧ ((incrementNodeCount cfg s now).2 = none →
        (getStats (incrementNodeCount cfg s now).1 now).nodeCount ≤ cfg.maxNodeCount)
    ∧ (checkTimeout cfg s now = none →
        ((incrementNodeCount cfg s now).2 ≠ none ↔ cfg.maxNodeCount < s.nodeCount + 1)) := by
  simp only [incrementNodeCount, checkTimeout, getStats]
  split_ifs <;> simp_all

/-- C5 witness: the amended statement applied to the state reached by two
increments under the tiny configuration. -/
theorem C5_witness :
    ((incrementNodeCount tinyConfig (rmIter tinyConfig 0 2) 0).2 ≠ none ↔
      tinyConfig.maxNodeCount < (rmIter tinyConfig 0 2).nodeCount + 1) :=
  (C5_amended tinyConfig (rmIter tinyConfig 0 2) 0).2.2 rfl

/-! ### C9: timeout checks and bracketing -/

/-- C9: check_timeout_aggressive trips exactly when elapsed exceeds ninety
percent of the budget, check_timeout exactly when elapsed exceeds the full
budget, and withTimeoutCheck runs the aggressive check before the wrapped
operation (a pre-trip discards the operation's result) and the strict check
after it. -/
theorem C9_theorem {α : Type} (cfg : ValidationConfig) (s : RMState) :
    (∀ now, (checkTimeoutAggressive cfg s now).isSome ↔
        9 * cfg.timeoutMs < 10 * (now - s.startTime))
    ∧ (∀ now, (checkTimeout cfg s now).isSome ↔ cfg.timeoutMs < now - s.startTime)
    ∧ (∀ preNow postNow (op : Except VError α),
        9 * cfg.timeoutMs < 10 * (preNow - s.startTime) →
        withTimeoutCheck cfg s preNow postNow op =
          .error { message := "Operation approaching timeout limit", etype := .timeoutE })
    ∧ (∀ preNow postNow (v : α),
        10 * (preNow - s.startTime) ≤ 9 * cfg.timeoutMs →
        cfg.timeoutMs < postNow - s.startTime →
        withTimeoutCheck cfg s preNow postNow (.ok v) =
          .error { message := "Validation timeout exceeded", etype := .timeoutE })
    ∧ (∀ preNow postNow (v : α),
        10 * (preNow - s.startTime) ≤ 9 * cfg.timeoutMs →
        postNow - s.startTime ≤ cfg.timeoutMs →
        withTimeoutCheck cfg s preNow postNow (.ok v) = .ok v) := by
  refine ⟨?_, ?_, ?_, ?_, ?_⟩
  · intro now
    simp only [checkTimeoutAggressive]
    split <;> simp_all
  · intro now
    simp only [checkTimeout]
    split <;> simp_all
  · intro preNow postNow op h
    simp only [withTimeoutCheck, checkTimeoutAggressive]
    rw [if_pos h]
  · intro preNow postNow v h1 h2
    have h3 : ¬ (9 * cfg.timeoutMs < 10 * (preNow - s.startTime)) := by omega
    simp only [withTimeoutCheck, checkTimeoutAggressive, checkTimeout]
    rw [if_neg h3, if_pos h2]
  · intro preNow postNow v h1 h2
    have h3 : ¬ (9 * cfg.timeoutMs < 10 * (preNow - s.startTime)) := by omega
    have h4 : ¬ (cfg.timeoutMs < postNow - s.startTime) := by omega
    simp only [withTimeoutCheck, checkTimeoutAggressive, checkTimeout]
    rw [if_neg h3, if_neg h4]

/-- C9 witness: under the extremely-safe budget of 1000 ms, a pre-check at
901 ms elapsed trips the aggressive check and discards the operation. -/
theorem C9_witness :
    withTimeoutCheck extremelySafeConfig (newRM 0) 901 0 (Except.ok (42 : Nat)) =
      .error { message := "Operation approaching timeout limit", etype := .timeoutE } :=
  (C9_theorem extremelySafeConfig (newRM 0)).2.2.1 901 0 (.ok 42) (by norm_num [extremelySafeConfig, newRM])

/-! ### C7: the complexity metric -/

theorem splitPartsF_length (pat : List Char) :
    ∀ (fuel : Nat) (s acc : List Char),
    (splitPartsF pat fuel s acc).length = countSubF pat fuel s + 1 := by
  intro fuel
  induction fuel with
  | zero =>
    intro s acc
    cases s <;> simp [splitPartsF, countSubF]
  | succ n ih =>
    intro s acc
    cases s with
    | nil => simp [splitPartsF, countSubF]
    | cons c t =>
      simp only [splitPartsF, countSubF]
      split
      · simp [ih]
        omega
      · exact ih t (acc ++ [c])

theorem splitParts_length (pat s : String) (h : pat.toList ≠ []) :
    (splitParts pat s).length = countSubstr pat s + 1 := by
  unfold splitParts splitPartsL countSubstr countSubL
  cases hp : pat.toList with
  | nil => exact absurd hp h
  | cons p ps => simp [splitPartsF_length]

/-- C7: the claimed formula, count("z.") + 2 count("object(") + 1.5
count("array("), disagrees with the code at the spec's own example: the
code computes split("z.").length, which is the occurrence count plus one,
so "z.string()" has complexity 2, not 1. -/
theorem C7_counterexample :
    (calculateGroupMetrics "z.string()" 1).complexity = 2
    ∧ (countSubstr "z." "z.string()" : ℚ) + 2 * (countSubstr "object(" "z.string()" : ℚ)
        + (3 / 2) * (countSubstr "array(" "z.string()" : ℚ) = 1
    ∧ (2 : ℚ) ≠ 1 := by
  have h1 : countSubstr "z." "z.string()" = 1 := by rfl
  have h2 : countSubstr "object(" "z.string()" = 0 := by rfl
  have h3 : countSubstr "array(" "z.string()" = 0 := by rfl
  have h4 : (splitParts "z." "z.string()").length = 2 := by rfl
  refine ⟨?_, ?_, by norm_num⟩
  · simp only [calculateGroupMetrics, h2, h3, h4]
    norm_num
  · rw [h1, h2, h3]
    norm_num

/-- C7 (amended): for every rendered code string, the reported complexity
equals count("z.", code) + 1 + 2 count("object(", code) + 1.5
count("array(", code). -/
theorem C7_amended (code : String) (n : Nat) :
    (calculateGroupMetrics code n).complexity =
      (countSubstr "z." code : ℚ) + 1 + 2 * (countSubstr "object(" code : ℚ)
        + (3 / 2) * (countSubstr "array(" code : ℚ) := by
  unfold calculateGroupMetrics
  rw [splitParts_length "z." code (by decide)]
  push_cast
  ring

/-! ### C10: the bare identifier z -/

/-- C10: validateChain accepts a bare Identifier named z with no issue, so
const mySchema = z; validates, survives auto-exported in the cleaned tree,
and is recorded as a root schema name. -/
theorem C10_theorem :
    (validateChain relaxedConfig oracleT (.ident "z") (freshCtx 0)).2 = true
    ∧ (validateChain relaxedConfig oracleT (.ident "z") (freshCtx 0)).1.issues = []
    ∧ (validateSchemaAst relaxedConfig oracleT 0 progC10).isValid = true
    ∧ (validateSchemaAst relaxedConfig oracleT 0 progC10).issues = []
    ∧ (validateSchemaAst relaxedConfig oracleT 0 progC10).rootSchemaNames = ["mySchema"]
    ∧ (validateSchemaAst relaxedConfig oracleT 0 progC10).cleanedStmts =
        [importZod, .exportNamed (some (.varDecl "const" [⟨"mySchema", some (.ident "z")⟩]))] := by
  exact ⟨rfl, rfl, rfl, rfl, rfl, rfl⟩

/-! ### C1: property safety of surviving object literals -/

/-- C1: refuted twice over.  (a) const mySchema = z.object with a
denied-prefix property name __bad passes the whole run (the chain validator
never forwards object arguments of z.object to the object validator), so
the violating literal survives in the cleaned tree of a valid run.  (b) The
object validator itself accepts an object whose property value is an object
literal with a policy-violating name: it does not recurse into values. -/
theorem C1_counterexample :
    (validateSchemaAst relaxedConfig oracleT 0 progC1).isValid = true
    ∧ (validateSchemaAst relaxedConfig oracleT 0 progC1).cleanedStmts =
        [importZod, .exportNamed (some badObjDecl)]
    ∧ relaxedConfig.propertySafety.deniedPrefixes.any (fun p => strIsPrefixOf p "__bad") = true
    ∧ (validateObjectExpression relaxedConfig
        [.oprop false (.ident "ok")
          (.objectE [.oprop false (.ident "__nested") (.numLit 1)])] 0).isValid = true
    ∧ (checkPropName relaxedConfig "__nested" "Identifier").isValid = false := by
  refine ⟨rfl, rfl, rfl, by decide, by decide⟩

/-! ### C2: which methods get argument validation -/

/-- C2: refuted.  With an oracle that rejects every pattern, the call
z.string().regex with a regex literal still passes chain validation with no
issue: the chain validator never forwards regex calls to the argument
validator, so the literal is never checked. -/
theorem C2_counterexample :
    (validateChain relaxedConfig oracleF (regexCallE "(a+)+") (freshCtx 0)).2 = true
    ∧ (validateChain relaxedConfig oracleF (regexCallE "(a+)+") (freshCtx 0)).1.issues = []
    ∧ oracleF "(a+)+" = false := by
  exact ⟨rfl, rfl, rfl⟩

/-- C2 (amended): the chain validator delegates argument validation exactly
for refine, transform and pipe.  Any regex call reached through chain
validation is accepted with no issue for every pattern and every oracle
(the rule-table entry for regex is unreachable from the chain), while a
refine call does reach the argument validator (an arity violation fails the
chain). -/
theorem C2_amended :
    (∀ m, requiresArgumentValidation m = true ↔
        (m = "refine" ∨ m = "transform" ∨ m = "pipe"))
    ∧ (∀ (pattern : String) (oracle : String → Bool),
        (validateChain relaxedConfig oracle (regexCallE pattern) (freshCtx 0)).2 = true
        ∧ (validateChain relaxedConfig oracle (regexCallE pattern) (freshCtx 0)).1.issues = [])
    ∧ (∀ (oracle : String → Bool),
        (validateChain relaxedConfig oracle (chainCall zStr "refine" []) (freshCtx 0)).2 = false) := by
  refine ⟨?_, fun pattern oracle => ⟨rfl, rfl⟩, fun oracle => rfl⟩
  intro m
  constructor
  · intro h
    have h2 : m ∈ ["refine", "transform", "pipe"] := by
      simpa [requiresArgumentValidation, List.contains, List.elem_eq_mem] using h
    simpa using h2
  · intro h
    rcases h with h | h | h <;> subst h <;> rfl

/-! ### C8: the array-root unwrap -/

set_option maxRecDepth 65536 in
set_option maxHeartbeats 1600000 in
/-- C8: the unwrap replaces a top-level z.array call with exactly one
non-spread argument by that argument, returned verbatim (nested z.array
calls untouched); every other expression is unchanged; and the nested-array
scenario yields a group code with exactly one occurrence of "z.array(". -/
theorem C8_theorem :
    (∀ (computed : Bool) (inner : Expr),
      unwrapArrayRootExpr
        (.callE (.member (.ident "z") (.ident "array") computed) [.pos inner]) = inner)
    ∧ (∀ e : Expr, unwrapArrayRootExpr e = e
        ∨ ∃ computed inner,
            e = .callE (.member (.ident "z") (.ident "array") computed) [.pos inner]
            ∧ unwrapArrayRootExpr e = inner)
    ∧ (generateSchemaGroupsM relaxedConfig stmtsC8).map SchemaGroup.code =
        ["z.array(z.string())"]
    ∧ countSubstr "z.array(" "z.array(z.string())" = 1 := by
  refine ⟨fun computed inner => rfl, ?_, by rfl, rfl⟩
  intro e
  unfold unwrapArrayRootExpr
  split
  · right
    exact ⟨_, _, rfl, rfl⟩
  · left
    rfl

/-! ### C3: is_valid versus reported error issues -/

/-- C3: refuted in the only-if direction.  The run on progC3 (a pipe call
whose argument is an object literal with the denied property name
constructor) fails: the argument validator consults the object validator's
verdict but drops its issues, so the returned result has is_valid = false
with an empty issue list, a run with no error-severity issue that is not
valid. -/
theorem C3_counterexample :
    (validateSchemaAst relaxedConfig oracleT 0 progC3).isValid = false
    ∧ (validateSchemaAst relaxedConfig oracleT 0 progC3).issues = [] := by
  exact ⟨rfl, rfl⟩

/-! ### C4: shape of surviving statements -/

/-- C4: refuted.  A const declaration mixing the schema declarator
userSchema with the non-schema declarator other = 42 survives auto-exported
in a valid run, yet the initializer 42 of the surviving declarator other is
rejected by the chain validator: only schema-like declarators are ever
passed to the recognizer. -/
theorem C4_counterexample :
    (validateSchemaAst relaxedConfig oracleT 0 progC4).isValid = true
    ∧ (validateSchemaAst relaxedConfig oracleT 0 progC4).cleanedStmts =
        [importZod, .exportNamed (some (.varDecl "const"
          [⟨"userSchema", some zStr⟩, ⟨"other", some (.numLit 42)⟩]))]
    ∧ (validateChain relaxedConfig oracleT (.numLit 42) (freshCtx 0)).2 = false := by
  exact ⟨rfl, rfl, rfl⟩

/-! ### C1: the object validator's acceptance and the name policy -/

theorem checkPropName_ok (cfg : ValidationConfig) (name nodeType : String)
    (h : (checkPropName cfg name nodeType).isValid = true) :
    namePolicyOK cfg.propertySafety name := by
  unfold checkPropName at h
  split_ifs at h with h1 h2 h3
  refine ⟨?_, ?_, ?_⟩
  · intro hm
    exact h1 (by simpa [List.contains, List.elem_eq_mem] using hm)
  · intro pre hp hs
    exact h2 (List.any_eq_true.mpr ⟨pre, hp, hs⟩)
  · by_cases he : cfg.propertySafety.allowedProperties = []
    · exact Or.inl he
    · refine Or.inr ?_
      by_contra hm
      exact h3 ⟨he, fun hc => hm (by simpa [List.contains, List.elem_eq_mem] using hc)⟩

theorem validatePropertyName_ok (cfg : ValidationConfig) (key : Expr)
    (h : (validatePropertyName cfg key).isValid = true) :
    ∃ nm, (key = .ident nm ∨ key = .strLit nm) ∧ namePolicyOK cfg.propertySafety nm := by
  unfold validatePropertyName at h
  split at h
  · exact ⟨_, Or.inl rfl, checkPropName_ok _ _ _ h⟩
  · exact ⟨_, Or.inr rfl, checkPropName_ok _ _ _ h⟩
  · simp at h

theorem validateProperty_ok (cfg : ValidationConfig) (p : OProp)
    (h : (validateProperty cfg p).isValid = true) :
    ∃ nm, propKeyName p = some nm ∧ namePolicyOK cfg.propertySafety nm := by
  unfold validateProperty at h
  split at h
  · rename_i computed key v
    split at h
    · simp at h
    · obtain ⟨nm, hk, hp⟩ := validatePropertyName_ok cfg key h
      rcases hk with rfl | rfl
      · exact ⟨nm, rfl, hp⟩
      · exact ⟨nm, rfl, hp⟩
  · rename_i mkind computed key
    split at h
    · simp at h
    · split at h
      · simp at h
      · obtain ⟨nm, hk, hp⟩ := validatePropertyName_ok cfg key h
        rcases hk with rfl | rfl
        · exact ⟨nm, rfl, hp⟩
        · exact ⟨nm, rfl, hp⟩
  · simp at h

theorem validatePropsLoop_ok (cfg : ValidationConfig) :
    ∀ props : List OProp, (validatePropsLoop cfg props).isValid = true →
      ∀ p ∈ props, ∃ nm, propKeyName p = some nm ∧ namePolicyOK cfg.propertySafety nm := by
  intro props
  induction props with
  | nil =>
    intro _ p hp
    exact absurd hp (List.not_mem_nil p)
  | cons q rest ih =>
    intro h p hp
    cases q with
    | ospread e =>
      simp [validatePropsLoop] at h
    | oprop c k v =>
      simp only [validatePropsLoop] at h
      split at h
      · rename_i hv
        rcases List.mem_cons.mp hp with rfl | hp'
        · exact validateProperty_ok cfg _ hv
        · exact ih h p hp'
      · simp at h
    | omethod mk c k =>
      simp only [validatePropsLoop] at h
      split at h
      · rename_i hv
        rcases List.mem_cons.mp hp with rfl | hp'
        · exact validateProperty_ok cfg _ hv
        · exact ih h p hp'
      · simp at h

/-- C1 (amended): when the object validator accepts a property list, every
property has an identifier or string-literal key whose name satisfies the
property-safety policy; the validator does not recurse into property values
(the run-level guarantee of the original claim fails, see the
counterexample). -/
theorem C1_amended (cfg : ValidationConfig) (props : List OProp) (depth : Nat)
    (h : (validateObjectExpression cfg props depth).isValid = true) :
    ∀ p ∈ props, ∃ nm, propKeyName p = some nm ∧ namePolicyOK cfg.propertySafety nm := by
  unfold validateObjectExpression at h
  split_ifs at h with h1 h2
  exact validatePropsLoop_ok cfg props h

/-- C1 witness: the amended theorem applied to a one-property object that
the relaxed-config validator accepts. -/
theorem C1_witness :
    ∃ nm, propKeyName (.oprop false (.ident "name") zStr) = some nm
      ∧ namePolicyOK relaxedConfig.propertySafety nm :=
  C1_amended relaxedConfig [.oprop false (.ident "name") zStr] 0 rfl
    (.oprop false (.ident "name") zStr) (List.Mem.head _)

/-! ### Helper lemmas: a successful chain or argument validation appends no
issue.  Stated in equation form for the case splits below. -/

theorem pair_ok_eq {c1 c : VCtx} {b : Bool}
    (h : (c1, (Except.ok b : Except VError Bool)) = (c, .ok true)) :
    c1 = c ∧ b = true :=
  ⟨congrArg Prod.fst h, Except.ok.inj (congrArg Prod.snd h)⟩

theorem ctxIncrement_fst_issues (cfg : ValidationConfig) (ctx : VCtx) :
    ((ctxIncrement cfg ctx).1).issues = ctx.issues := by
  unfold ctxIncrement
  cases incrementNodeCount cfg ctx.rm ctx.clock
  rfl

theorem ctxIncrement_issues (cfg : ValidationConfig) {ctx ctx1 : VCtx}
    {r : Option VError} (h : ctxIncrement cfg ctx = (ctx1, r)) :
    ctx1.issues = ctx.issues := by
  rw [← ctxIncrement_fst_issues cfg ctx, h]

theorem ctxTrackDepth_fst_issues (cfg : ValidationConfig) (ctx : VCtx)
    (depth : Nat) (dt : DepthType) :
    ((ctxTrackDepth cfg ctx depth dt).1).issues = ctx.issues := by
  unfold ctxTrackDepth
  cases trackDepth cfg ctx.rm depth dt
  rfl

theorem ctxTrackDepth_issues (cfg : ValidationConfig) {ctx ctx2 : VCtx}
    {depth : Nat} {dt : DepthType} {r : Option VError}
    (h : ctxTrackDepth cfg ctx depth dt = (ctx2, r)) :
    ctx2.issues = ctx.issues := by
  rw [← ctxTrackDepth_fst_issues cfg ctx depth dt, h]

theorem validateIdentifierC_eq {n : String} {ctx c : VCtx}
    (h : validateIdentifierC n ctx = (c, true)) : c = ctx := by
  unfold validateIdentifierC at h
  split at h
  · exact absurd (congrArg Prod.snd h) (by simp)
  · exact (congrArg Prod.fst h).symm

theorem validateArgumentCount_eq {cfg : ValidationConfig} {rules : ArgumentRule}
    {n : Nat} {ctx c : VCtx}
    (h : validateArgumentCount cfg rules n ctx = (c, true)) : c = ctx := by
  unfold validateArgumentCount at h
  split at h
  · split at h
    · exact absurd (congrArg Prod.snd h) (by simp)
    · split at h
      · split at h
        · exact absurd (congrArg Prod.snd h) (by simp)
        · exact (congrArg Prod.fst h).symm
      · exact (congrArg Prod.fst h).symm
  · split at h
    · split at h
      · exact absurd (congrArg Prod.snd h) (by simp)
      · exact (congrArg Prod.fst h).symm
    · exact (congrArg Prod.fst h).symm

theorem validateRegexLiteral_eq {cfg : ValidationConfig} {oracle : String → Bool}
    {p : String} {ctx c : VCtx}
    (h : validateRegexLiteral cfg oracle p ctx = (c, true)) : c = ctx := by
  unfold validateRegexLiteral at h
  split at h
  · exact absurd (congrArg Prod.snd h) (by simp)
  · split at h
    · exact absurd (congrArg Prod.snd h) (by simp)
    · exact (congrArg Prod.fst h).symm

theorem validateLiteralArgument_eq {cfg : ValidationConfig} {oracle : String → Bool}
    {e : Expr} {ctx c : VCtx}
    (h : validateLiteralArgument cfg oracle e ctx = (c, true)) : c = ctx := by
  unfold validateLiteralArgument at h
  split at h
  · exact (congrArg Prod.fst h).symm
  · exact validateRegexLiteral_eq h
  · exact (congrArg Prod.fst h).symm

theorem validateFunctionBody_eq {e : Expr} {ctx c : VCtx}
    (h : validateFunctionBody e ctx = (c, true)) : c = ctx := by
  unfold validateFunctionBody at h
  split at h
  · split at h
    · exact absurd (congrArg Prod.snd h) (by simp)
    · split at h
      · exact absurd (congrArg Prod.snd h) (by simp)
      · exact (congrArg Prod.fst h).symm
  · split at h
    · exact absurd (congrArg Prod.snd h) (by simp)
    · split at h
      · exact absurd (congrArg Prod.snd h) (by simp)
      · exact (congrArg Prod.fst h).symm
  · exact (congrArg Prod.fst h).symm

theorem validateFunctionArgument_eq {rules : ArgumentRule} {e : Expr} {ctx c : VCtx}
    (h : validateFunctionArgument rules e ctx = (c, true)) : c = ctx := by
  unfold validateFunctionArgument at h
  split at h
  · exact absurd (congrArg Prod.snd h) (by simp)
  · split at h
    · exact validateFunctionBody_eq h
    · exact (congrArg Prod.fst h).symm

theorem let_ok_eq {f : VCtx × Bool} {c : VCtx}
    (h : (f.1, (Except.ok f.2 : Except VError Bool)) = (c, .ok true)) :
    f = (c, true) := by
  obtain ⟨h1, h2⟩ := pair_ok_eq h
  rw [← h1, ← h2]

theorem esizeArgs_cons (a : Argum) (t : List Argum) :
    esizeArgs (a :: t) = 1 + asize a + esizeArgs t := by
  cases a <;> simp [esizeArgs, asize]

theorem esizeElems_cons (a : Argum) (t : List (Option Argum)) :
    esizeElems (some a :: t) = 1 + asize a + esizeElems t := by
  cases a <;> simp [esizeElems, asize]

mutual

/-- A chain-node validation that returns ok true appends no issue. -/
theorem validateChainNode_true_issues (cfg : ValidationConfig) (oracle : String → Bool)
    (e : Expr) (depth : Nat) (ctx c : VCtx)
    (h : validateChainNode cfg oracle e depth ctx = (c, .ok true)) :
    c.issues = ctx.issues := by
  unfold validateChainNode at h
  split at h
  · simp at h
  · rename_i ctx1 hinc
    split at h
    · simp at h
    · rename_i ctx2 htrk
      have hbase : ctx2.issues = ctx.issues :=
        (ctxTrackDepth_issues cfg htrk).trans (ctxIncrement_issues cfg hinc)
      split at h
      · rename_i n
        rw [validateIdentifierC_eq (let_ok_eq h)]
        exact hbase
      · rename_i obj propE computed
        split at h
        · simp at h
        · split at h
          · simp at h
          · simp at h
          · rename_i c' hrec
            have hrecI : c'.issues = ctx.issues :=
              (validateChainNode_true_issues cfg oracle obj (depth + 1) ctx2 c' hrec).trans hbase
            split at h
            · rename_i methodName
              split at h
              · simp at h
              · rw [← (pair_ok_eq h).1]
                exact hrecI
            all_goals simp at h
      · rename_i callee args
        split at h
        · simp at h
        · simp at h
        · rename_i c' hrec
          have hrecI : c'.issues = ctx.issues :=
            (validateChainNode_true_issues cfg oracle callee (depth + 1) ctx2 c' hrec).trans hbase
          split at h
          · simp at h
          · rename_i methodName hmn
            split at h
            · split at h
              · rw [← (pair_ok_eq h).1]
                exact hrecI
              · rename_i rules hrules
                split at h
                · simp at h
                · rename_i c1 hcount
                  split at h
                  · rename_i c2 b hloop
                    obtain ⟨h1, h2⟩ := pair_ok_eq h
                    subst h2
                    rw [← h1]
                    rw [validateArgsLoop_true_issues cfg oracle rules methodName args 0 c1 c2 hloop]
                    rw [validateArgumentCount_eq hcount]
                    exact hrecI
                  · simp at h
            · rw [← (pair_ok_eq h).1]
              exact hrecI
      all_goals simp at h
termination_by esize e
decreasing_by all_goals (subst_vars; simp [esize, esizeArgs, asize, esizeElems, esizeArgs_cons, esizeElems_cons] <;> omega)

/-- A successful run of the argument loop appends no issue. -/
theorem validateArgsLoop_true_issues (cfg : ValidationConfig) (oracle : String → Bool)
    (rules : ArgumentRule) (methodName : String) (args : List Argum) (index : Nat)
    (ctx c : VCtx)
    (h : validateArgsLoop cfg oracle rules methodName args index ctx = (c, .ok true)) :
    c.issues = ctx.issues := by
  cases args with
  | nil =>
    simp only [validateArgsLoop] at h
    rw [← (pair_ok_eq h).1]
  | cons a rest =>
    simp only [validateArgsLoop] at h
    split at h
    · simp at h
    · simp at h
    · rename_i ctx1 harg
      exact (validateArgsLoop_true_issues cfg oracle rules methodName rest (index + 1) ctx1 c h).trans
        (validateArgument_true_issues cfg oracle a rules methodName index ctx ctx1 harg)
termination_by esizeArgs args
decreasing_by all_goals (subst_vars; simp [esize, esizeArgs, asize, esizeElems, esizeArgs_cons, esizeElems_cons] <;> omega)

/-- A single argument validation that returns ok true appends no issue. -/
theorem validateArgument_true_issues (cfg : ValidationConfig) (oracle : String → Bool)
    (arg : Argum) (rules : ArgumentRule) (methodName : String) (index : Nat)
    (ctx c : VCtx)
    (h : validateArgument cfg oracle arg rules methodName index ctx = (c, .ok true)) :
    c.issues = ctx.issues := by
  unfold validateArgument at h
  split at h
  · simp at h
  · rename_i ctx1 hinc
    have hbase : ctx1.issues = ctx.issues := ctxIncrement_issues cfg hinc
    split at h
    · simp at h
    · split at h
      · -- arg = .pos e
        split at h
        · rw [validateFunctionArgument_eq (let_ok_eq h)]
          exact hbase
        · rw [validateFunctionArgument_eq (let_ok_eq h)]
          exact hbase
        · split at h
          · simp at h
          · rw [← (pair_ok_eq h).1]
            exact hbase
        · split at h
          · simp at h
          · rename_i elems hsz
            exact (validateArrayLoop_true_issues cfg oracle _ ctx1 c h).trans hbase
        · rw [validateLiteralArgument_eq (let_ok_eq h)]
          exact hbase
        · rw [validateLiteralArgument_eq (let_ok_eq h)]
          exact hbase
        · rw [validateLiteralArgument_eq (let_ok_eq h)]
          exact hbase
        · rw [validateLiteralArgument_eq (let_ok_eq h)]
          exact hbase
        · rw [validateLiteralArgument_eq (let_ok_eq h)]
          exact hbase
        · rw [← (pair_ok_eq h).1]
          exact hbase
        · split at h
          · split at h
            · rw [← (pair_ok_eq h).1]
              exact hbase
            · simp at h
          · simp at h
        · rw [← (pair_ok_eq h).1]
          exact hbase
        all_goals simp at h
      · -- arg = .spread e
        simp at h
termination_by asize arg
decreasing_by all_goals (subst_vars; simp [esize, esizeArgs, asize, esizeElems, esizeArgs_cons, esizeElems_cons] <;> omega)

/-- A successful run of the array-element loop appends no issue. -/
theorem validateArrayLoop_true_issues (cfg : ValidationConfig) (oracle : String → Bool)
    (elems : List (Option Argum)) (ctx c : VCtx)
    (h : validateArrayLoop cfg oracle elems ctx = (c, .ok true)) :
    c.issues = ctx.issues := by
  cases elems with
  | nil =>
    simp only [validateArrayLoop] at h
    rw [← (pair_ok_eq h).1]
  | cons el rest =>
    cases el with
    | none =>
      simp only [validateArrayLoop] at h
      exact validateArrayLoop_true_issues cfg oracle rest ctx c h
    | some a =>
      simp only [validateArrayLoop] at h
      split at h
      · simp at h
      · simp at h
      · rename_i ctx1 harg
        exact (validateArrayLoop_true_issues cfg oracle rest ctx1 c h).trans
          (validateArgument_true_issues cfg oracle a _ "array" 0 ctx ctx1 harg)
termination_by esizeElems elems
decreasing_by all_goals (subst_vars; simp [esize, esizeArgs, asize, esizeElems, esizeArgs_cons, esizeElems_cons] <;> omega)

end

/-- A chain validation that returns true appends no issue. -/
theorem validateChain_true {cfg : ValidationConfig} {oracle : String → Bool}
    {e : Expr} {ctx ctx1 : VCtx}
    (h : validateChain cfg oracle e ctx = (ctx1, true)) :
    ctx1.issues = ctx.issues := by
  unfold validateChain at h
  split at h
  · rename_i c' b heq
    have h1 := congrArg Prod.fst h
    have h2 := congrArg Prod.snd h
    simp only [] at h1 h2
    subst h2
    rw [← h1]
    exact validateChainNode_true_issues cfg oracle e 0 ctx c' heq
  · exact absurd (congrArg Prod.snd h) (by simp)

/-- The declarator loop never succeeds once the accumulator is false. -/
theorem validateDeclarators_false (cfg : ValidationConfig) (oracle : String → Bool) :
    ∀ (ds : List Declarator) (st : PassState),
      (validateDeclarators cfg oracle ds st false).2 = false := by
  intro ds
  induction ds with
  | nil =>
    intro st
    rfl
  | cons d rest ih =>
    intro st
    simp only [validateDeclarators]
    split
    · exact ih _
    · split
      · exact ih _
      · split
        · split
          · exact ih _
          · exact ih _
        · exact ih _

/-- A successful declarator loop leaves the issue list and the error flag
unchanged. -/
theorem validateDeclarators_true (cfg : ValidationConfig) (oracle : String → Bool) :
    ∀ (ds : List Declarator) (st st' : PassState),
      validateDeclarators cfg oracle ds st true = (st', true) →
      st'.ctx.issues = st.ctx.issues ∧ st'.hasErrors = st.hasErrors := by
  intro ds
  induction ds with
  | nil =>
    intro st st' h
    injection h with h1 _
    subst h1
    exact ⟨rfl, rfl⟩
  | cons d rest ih =>
    intro st st' h
    simp only [validateDeclarators] at h
    split at h
    · have hf := congrArg Prod.snd h
      simp only [validateDeclarators_false] at hf
      exact Bool.noConfusion hf
    · rename_i ini hget
      split at h
      · have hf := congrArg Prod.snd h
        simp only [validateDeclarators_false] at hf
        exact Bool.noConfusion hf
      · split at h
        · split at h
          · rename_i hok
            have heq : validateChain cfg oracle ini st.ctx
                = ((validateChain cfg oracle ini st.ctx).1, true) := by
              rw [← hok]
            obtain ⟨h1, h2⟩ := ih _ _ h
            constructor
            · rw [h1]
              exact validateChain_true heq
            · rw [h2]
          · have hf := congrArg Prod.snd h
            simp only [validateDeclarators_false] at hf
            exact Bool.noConfusion hf
        · exact ih _ _ h

theorem validateVariableDeclaration_true {cfg : ValidationConfig} {oracle : String → Bool}
    {k : String} {ds : List Declarator} {st st' : PassState}
    (h : validateVariableDeclaration cfg oracle k ds st = (st', true)) :
    st'.ctx.issues = st.ctx.issues ∧ st'.hasErrors = st.hasErrors := by
  unfold validateVariableDeclaration at h
  split at h
  · exact absurd (congrArg Prod.snd h) (by simp)
  · exact validateDeclarators_true cfg oracle ds st st' h

/-- One pass step: a result without the error flag arose from a state
without it, and appended no issue. -/
theorem processStmt_noerr (cfg : ValidationConfig) (oracle : String → Bool) :
    ∀ (s : Stmt) (p : Bool) (st st1 : PassState) (r : Option Stmt),
      processStmt cfg oracle p st s = (st1, r) →
      st1.hasErrors = false →
      st.hasErrors = false ∧ st1.ctx.issues = st.ctx.issues
  | .importDecl src specs, p, st, st1, r => by
    intro h hne
    simp only [processStmt] at h
    split at h
    · injection h with h1 _
      rw [← h1] at hne
      simp at hne
    · injection h with h1 _
      subst h1
      exact ⟨hne, rfl⟩
  | .varDecl dkind decls, p, st, st1, r => by
    intro h hne
    simp only [processStmt] at h
    split at h
    · injection h with h1 _
      rw [← h1] at hne
      simp at hne
    · rename_i st1' hvv
      obtain ⟨hiss, herr⟩ := validateVariableDeclaration_true hvv
      split at h
      · split at h
        · injection h with h1 _
          subst h1
          refine ⟨?_, hiss⟩
          rw [← herr]
          exact hne
        · injection h with h1 _
          subst h1
          refine ⟨?_, hiss⟩
          rw [← herr]
          exact hne
      · injection h with h1 _
        subst h1
        refine ⟨?_, hiss⟩
        rw [← herr]
        exact hne
  | .exportNamed none, p, st, st1, r => by
    intro h hne
    simp only [processStmt] at h
    injection h with h1 _
    subst h1
    exact ⟨hne, rfl⟩
  | .exportNamed (some inner), p, st, st1, r => by
    intro h hne
    simp only [processStmt] at h
    cases hps : processStmt cfg oracle true st inner with
    | mk st1' r' =>
      rw [hps] at h
      injection h with h1 _
      subst h1
      exact processStmt_noerr cfg oracle inner true st st1' r' hps hne
  | .exportDefault, p, st, st1, r => by
    intro h hne
    simp only [processStmt] at h
    injection h with h1 _
    subst h1
    exact ⟨hne, rfl⟩
  | .exprStmt e, p, st, st1, r => by
    intro h hne
    simp only [processStmt] at h
    injection h with h1 _
    rw [← h1] at hne
    simp at hne
  | .otherStmt k, p, st, st1, r => by
    intro h hne
    simp only [processStmt] at h
    injection h with h1 _
    rw [← h1] at hne
    simp at hne

/-- The whole pass: a final state without the error flag started without it
and appended no issue. -/
theorem processStmts_noerr (cfg : ValidationConfig) (oracle : String → Bool) :
    ∀ (l : List Stmt) (st st1 : PassState) (out : List Stmt),
      processStmts cfg oracle st l = (st1, out) →
      st1.hasErrors = false →
      st.hasErrors = false ∧ st1.ctx.issues = st.ctx.issues := by
  intro l
  induction l with
  | nil =>
    intro st st1 out h hne
    injection h with h1 _
    subst h1
    exact ⟨hne, rfl⟩
  | cons s rest ih =>
    intro st st1 out h hne
    simp only [processStmts] at h
    cases hps : processStmt cfg oracle false st s with
    | mk stA r =>
      rw [hps] at h
      cases hrest : processStmts cfg oracle stA rest with
      | mk stB outB =>
        rw [hrest] at h
        injection h with h1 _
        subst h1
        obtain ⟨hA1, hA2⟩ := ih stA stB outB hrest hne
        obtain ⟨hB1, hB2⟩ := processStmt_noerr cfg oracle s false st stA r hps hA1
        exact ⟨hB1, hA2.trans hB2⟩

theorem bnot_true_elim {b : Bool} (h : (!b) = true) : b = false := by
  cases b
  · rfl
  · exact absurd h (by simp)

theorem bnot_false_elim {b : Bool} (h : (!b) = false) : b = true := by
  cases b
  · exact absurd h (by simp)
  · rfl

/-- A valid run reports no issue at all. -/
theorem validateSchemaAst_valid_issues (cfg : ValidationConfig) (oracle : String → Bool)
    (clock : Nat) (prog : List Stmt)
    (h : (validateSchemaAst cfg oracle clock prog).isValid = true) :
    (validateSchemaAst cfg oracle clock prog).issues = [] := by
  revert h
  unfold validateSchemaAst
  dsimp only
  split
  · intro h
    have hval := bnot_true_elim h
    obtain ⟨h0, hiss⟩ := processStmts_noerr cfg oracle prog _ _ _ Prod.mk.eta.symm hval
    rw [hiss]
  · rename_i himp
    intro h
    have hval := bnot_true_elim h
    obtain ⟨h0, hiss⟩ := processStmts_noerr cfg oracle prog _ _ _ Prod.mk.eta.symm hval
    have h0x : (!hasZodImport prog) = false := h0
    exact absurd (bnot_false_elim h0x) himp

/-- C3 (amended): is_valid is false whenever at least one error-severity
issue was reported.  (The converse of the original claim fails: a run can
be invalid with an empty issue list, see the counterexample.) -/
theorem C3_amended (cfg : ValidationConfig) (oracle : String → Bool) (clock : Nat)
    (prog : List Stmt)
    (h : hasErrorIssue (validateSchemaAst cfg oracle clock prog).issues) :
    (validateSchemaAst cfg oracle clock prog).isValid = false := by
  cases hb : (validateSchemaAst cfg oracle clock prog).isValid
  · rfl
  · exfalso
    have hiss := validateSchemaAst_valid_issues cfg oracle clock prog hb
    rw [hiss] at h
    unfold hasErrorIssue at h
    obtain ⟨i, hi, _⟩ := h
    exact absurd hi (List.not_mem_nil i)

/-- C3 witness: a run without the zod import reports a missing-import error
and is indeed invalid. -/
theorem C3_witness :
    (validateSchemaAst relaxedConfig oracleT 0 []).isValid = false := by
  have hm : (validateSchemaAst relaxedConfig oracleT 0 []).issues =
      [mkIssue "Missing z import from zod" "File" .error none] := rfl
  exact C3_amended relaxedConfig oracleT 0 []
    ⟨mkIssue "Missing z import from zod" "File" .error none,
     by rw [hm]; exact List.mem_singleton.mpr rfl, rfl⟩

/-! ### C4 (amended): what survival does guarantee -/

/-- A declarator loop that returns true validated every schema-like
declarator's initializer. -/
theorem validateDeclarators_ok (cfg : ValidationConfig) (oracle : String → Bool) :
    ∀ (ds : List Declarator) (st st' : PassState) (acc : Bool),
      validateDeclarators cfg oracle ds st acc = (st', true) →
      ∀ d ∈ ds, isSchemaDeclaration d = true →
        ∃ e ctx ctx', d.dinit = some e ∧ validateChain cfg oracle e ctx = (ctx', true) := by
  intro ds
  induction ds with
  | nil =>
    intro st st' acc h d hd
    exact absurd hd (List.not_mem_nil d)
  | cons q rest ih =>
    intro st st' acc h d hd hsd
    simp only [validateDeclarators] at h
    split at h
    · have hf := congrArg Prod.snd h
      simp only [validateDeclarators_false] at hf
      exact Bool.noConfusion hf
    · rename_i ini hget
      split at h
      · have hf := congrArg Prod.snd h
        simp only [validateDeclarators_false] at hf
        exact Bool.noConfusion hf
      · split at h
        · rename_i hschema
          split at h
          · rename_i hok
            rcases List.mem_cons.mp hd with rfl | hd'
            · exact ⟨ini, st.ctx, (validateChain cfg oracle ini st.ctx).1, hget, by rw [← hok]⟩
            · exact ih _ _ _ h d hd' hsd
          · have hf := congrArg Prod.snd h
            simp only [validateDeclarators_false] at hf
            exact Bool.noConfusion hf
        · rename_i hnotschema
          rcases List.mem_cons.mp hd with rfl | hd'
          · exact absurd hsd hnotschema
          · exact ih _ _ _ h d hd' hsd

theorem validateVariableDeclaration_ok {cfg : ValidationConfig} {oracle : String → Bool}
    {k : String} {ds : List Declarator} {st st' : PassState}
    (h : validateVariableDeclaration cfg oracle k ds st = (st', true)) :
    k = "const" ∧ ∀ d ∈ ds, isSchemaDeclaration d = true →
      ∃ e ctx ctx', d.dinit = some e ∧ validateChain cfg oracle e ctx = (ctx', true) := by
  unfold validateVariableDeclaration at h
  split at h
  · exact absurd (congrArg Prod.snd h) (by simp)
  · rename_i hk
    exact ⟨not_not.mp hk, validateDeclarators_ok cfg oracle ds st st' true h⟩

theorem survivorOK_of (cfg : ValidationConfig) (oracle : String → Bool) (s : Stmt)
    (hE : ExportedDeclOK cfg oracle s)
    (hnv : ∀ k ds, s ≠ .varDecl k ds) : SurvivorOK cfg oracle s := by
  cases s with
  | varDecl k ds => exact absurd rfl (hnv k ds)
  | exportNamed inner =>
    cases inner with
    | none => trivial
    | some i => exact hE
  | importDecl src specs => trivial
  | exportDefault => trivial
  | exprStmt e => trivial
  | otherStmt k => trivial

/-- A statement that survives one pass step is well-formed: its export
payload is a const declaration whose schema-like declarators all validated,
and at top level (parent not an export) it is never a bare declaration. -/
theorem processStmt_ok (cfg : ValidationConfig) (oracle : String → Bool) :
    ∀ (s : Stmt) (p : Bool) (st st1 : PassState) (s' : Stmt),
      processStmt cfg oracle p st s = (st1, some s') →
      ExportedDeclOK cfg oracle s' ∧ (p = false → ∀ k ds, s' ≠ .varDecl k ds)
  | .importDecl src specs, p, st, st1, s' => by
    intro h
    simp only [processStmt] at h
    split at h
    · exact absurd (congrArg Prod.snd h) (by simp)
    · have h2 := congrArg Prod.snd h
      injection h2 with h3
      subst h3
      exact ⟨trivial, by intro _ k ds; simp⟩
  | .varDecl dkind decls, p, st, st1, s' => by
    intro h
    simp only [processStmt] at h
    split at h
    · exact absurd (congrArg Prod.snd h) (by simp)
    · rename_i st1' hvv
      obtain ⟨hk, hds⟩ := validateVariableDeclaration_ok hvv
      split at h
      · split at h
        · rename_i hp
          have h2 := congrArg Prod.snd h
          injection h2 with h3
          subst h3
          refine ⟨⟨hk, hds⟩, ?_⟩
          intro hpf
          rw [hpf] at hp
          exact Bool.noConfusion hp
        · have h2 := congrArg Prod.snd h
          injection h2 with h3
          subst h3
          exact ⟨⟨hk, hds⟩, by intro _ k ds; simp⟩
      · exact absurd (congrArg Prod.snd h) (by simp)
  | .exportNamed none, p, st, st1, s' => by
    intro h
    simp only [processStmt] at h
    have h2 := congrArg Prod.snd h
    injection h2 with h3
    subst h3
    exact ⟨trivial, by intro _ k ds; simp⟩
  | .exportNamed (some inner), p, st, st1, s' => by
    intro h
    simp only [processStmt] at h
    cases hps : processStmt cfg oracle true st inner with
    | mk stA r =>
      rw [hps] at h
      have h2 := congrArg Prod.snd h
      injection h2 with h3
      subst h3
      cases r with
      | none => exact ⟨trivial, by intro _ k ds; simp⟩
      | some s0 =>
        obtain ⟨hE, _⟩ := processStmt_ok cfg oracle inner true st stA s0 hps
        exact ⟨hE, by intro _ k ds; simp⟩
  | .exportDefault, p, st, st1, s' => by
    intro h
    simp only [processStmt] at h
    have h2 := congrArg Prod.snd h
    injection h2 with h3
    subst h3
    exact ⟨trivial, by intro _ k ds; simp⟩
  | .exprStmt e, p, st, st1, s' => by
    intro h
    simp only [processStmt] at h
    exact absurd (congrArg Prod.snd h) (by simp)
  | .otherStmt k, p, st, st1, s' => by
    intro h
    simp only [processStmt] at h
    exact absurd (congrArg Prod.snd h) (by simp)

/-- Every statement of the pass output is a well-formed survivor. -/
theorem processStmts_ok (cfg : ValidationConfig) (oracle : String → Bool) :
    ∀ (l : List Stmt) (st : PassState),
      ∀ s' ∈ (processStmts cfg oracle st l).2, SurvivorOK cfg oracle s' := by
  intro l
  induction l with
  | nil =>
    intro st s' hs
    exact absurd hs (List.not_mem_nil s')
  | cons s rest ih =>
    intro st s' hs
    simp only [processStmts] at hs
    cases hps : processStmt cfg oracle false st s with
    | mk stA r =>
      rw [hps] at hs
      cases hrest : processStmts cfg oracle stA rest with
      | mk stB outB =>
        rw [hrest] at hs
        cases r with
        | none =>
          exact ih stA s' (by rw [hrest]; exact hs)
        | some s0 =>
          have hs2 : s' ∈ s0 :: outB := hs
          rcases List.mem_cons.mp hs2 with rfl | hmem
          · obtain ⟨hE, hnv⟩ := processStmt_ok cfg oracle s false st stA s' hps
            exact survivorOK_of cfg oracle s' hE (hnv rfl)
          · exact ih stA s' (by rw [hrest]; exact hmem)

/-- C4 (amended): every statement surviving in the cleaned tree is a
well-formed survivor: never a bare variable declaration, and an
export-wrapped declaration is const with every schema-like declarator's
initializer accepted by the chain validator.  (The original claim fails for
non-schema declarators sharing a surviving declaration, see the
counterexample.) -/
theorem C4_amended (cfg : ValidationConfig) (oracle : String → Bool) (clock : Nat)
    (prog : List Stmt) :
    ∀ s ∈ (validateSchemaAst cfg oracle clock prog).cleanedStmts,
      SurvivorOK cfg oracle s := by
  intro s hs
  revert hs
  unfold validateSchemaAst
  dsimp only
  split
  · split
    · intro hs
      exact processStmts_ok cfg oracle prog _ s hs
    · intro hs
      exact absurd hs (List.not_mem_nil s)
  · split
    · intro hs
      exact processStmts_ok cfg oracle prog _ s hs
    · intro hs
      exact absurd hs (List.not_mem_nil s)

/-- C4 witness: the amended theorem applied to the surviving export of
progC4. -/
theorem C4_witness :
    SurvivorOK relaxedConfig oracleT
      (.exportNamed (some (.varDecl "const"
        [⟨"userSchema", some zStr⟩, ⟨"other", some (.numLit 42)⟩]))) := by
  refine C4_amended relaxedConfig oracleT 0 progC4 _ ?_
  have hm : (validateSchemaAst relaxedConfig oracleT 0 progC4).cleanedStmts =
      [importZod, .exportNamed (some (.varDecl "const"
        [⟨"userSchema", some zStr⟩, ⟨"other", some (.numLit 42)⟩]))] := rfl
  rw [hm]
  exact List.mem_cons.mpr (Or.inr (List.mem_singleton.mpr rfl))

/-! ### C6: association-list and set-list lemmas -/

theorem lookupA_setA {α : Type} (m : List (String × α)) (k k' : String) (v : α) :
    lookupA (setA m k v) k' = if k' = k then some v else lookupA m k' := by
  induction m with
  | nil =>
    by_cases h : k' = k
    · subst h
      simp [setA, lookupA]
    · simp [setA, lookupA, h, Ne.symm h]
  | cons p t ih =>
    obtain ⟨a, b⟩ := p
    by_cases hak : a = k
    · subst hak
      by_cases h : k' = a
      · subst h
        simp [setA, lookupA]
      · simp [setA, lookupA, h, Ne.symm h]
    · by_cases hak' : a = k'
      · subst hak'
        simp [setA, lookupA, hak]
      · simp [setA, lookupA, hak, hak', ih]

theorem lookupA_none_iff {α : Type} (m : List (String × α)) (k : String) :
    lookupA m k = none ↔ ¬ k ∈ keysA m := by
  induction m with
  | nil => simp [lookupA, keysA]
  | cons p t ih =>
    obtain ⟨a, b⟩ := p
    by_cases hak : a = k
    · subst hak
      simp [lookupA, keysA]
    · simp [lookupA, keysA, hak, ih, Ne.symm hak]

theorem hasKeyA_iff_mem {α : Type} (m : List (String × α)) (k : String) :
    hasKeyA m k = true ↔ k ∈ keysA m := by
  rw [hasKeyA, Option.isSome_iff_ne_none]
  constructor
  · intro h
    by_contra hm
    exact h ((lookupA_none_iff m k).mpr hm)
  · intro h hn
    exact (lookupA_none_iff m k).mp hn h

theorem keysA_setA_fresh {α : Type} (m : List (String × α)) (k : String) (v : α)
    (h : lookupA m k = none) : keysA (setA m k v) = keysA m ++ [k] := by
  induction m with
  | nil => simp [setA, keysA]
  | cons p t ih =>
    obtain ⟨a, b⟩ := p
    simp only [lookupA] at h
    by_cases hak : a = k
    · rw [if_pos hak] at h
      exact absurd h (by simp)
    · rw [if_neg hak] at h
      have h2 := ih h
      simp only [keysA] at h2 ⊢
      simp [setA, hak, h2]

theorem mem_insertUnique (l : List String) (v x : String) :
    x ∈ insertUnique l v ↔ x ∈ l ∨ x = v := by
  unfold insertUnique
  split
  · rename_i hv
    constructor
    · exact Or.inl
    · rintro (h | rfl)
      · exact h
      · exact hv
  · simp [List.mem_append]

theorem mem_foldl_insertUnique (l : List String) : ∀ (acc : List String) (x : String),
    x ∈ l.foldl insertUnique acc ↔ x ∈ acc ∨ x ∈ l := by
  induction l with
  | nil =>
    intro acc x
    simp
  | cons a t ih =>
    intro acc x
    simp only [List.foldl_cons]
    rw [ih, mem_insertUnique]
    constructor
    · rintro ((h | rfl) | h)
      · exact Or.inl h
      · exact Or.inr (List.mem_cons_self _ _)
      · exact Or.inr (List.mem_cons_of_mem _ h)
    · rintro (h | h)
      · exact Or.inl (Or.inl h)
      · rcases List.mem_cons.mp h with rfl | h2
        · exact Or.inl (Or.inr rfl)
        · exact Or.inr h2

theorem mem_dedupKeepFirst (l : List String) (x : String) :
    x ∈ dedupKeepFirst l ↔ x ∈ l := by
  rw [dedupKeepFirst, mem_foldl_insertUnique]
  simp

theorem lookupA_addToSetA (rm : List (String × List String)) (k k' v : String) :
    lookupA (addToSetA rm k v) k' =
      if k' = k then some (insertUnique ((lookupA rm k).getD []) v)
      else lookupA rm k' := by
  induction rm with
  | nil =>
    by_cases h : k' = k
    · subst h
      simp [addToSetA, lookupA, insertUnique]
    · simp [addToSetA, lookupA, h, Ne.symm h]
  | cons p t ih =>
    obtain ⟨a, s⟩ := p
    by_cases hak : a = k
    · subst hak
      by_cases h : k' = a
      · subst h
        simp [addToSetA, lookupA]
      · simp [addToSetA, lookupA, h, Ne.symm h]
    · by_cases hak' : a = k'
      · subst hak'
        simp [addToSetA, lookupA, hak]
      · simp [addToSetA, lookupA, hak, hak', ih]

theorem lookupA_foldl_addToSetA (nm : String) :
    ∀ (ds : List String) (rm : List (String × List String)) (a b : String),
    (∃ refs, lookupA (ds.foldl (fun r d => addToSetA r d nm) rm) a = some refs ∧ b ∈ refs)
      ↔ (∃ refs, lookupA rm a = some refs ∧ b ∈ refs) ∨ (a ∈ ds ∧ b = nm) := by
  intro ds
  induction ds with
  | nil =>
    intro rm a b
    simp
  | cons d t ih =>
    intro rm a b
    simp only [List.foldl_cons]
    rw [ih]
    constructor
    · rintro (⟨refs, hl, hb⟩ | ⟨ha, hbnm⟩)
      · rw [lookupA_addToSetA] at hl
        by_cases had : a = d
        · rw [if_pos had] at hl
          injection hl with hl2
          subst hl2
          rw [mem_insertUnique] at hb
          rcases hb with hb | hbeq
          · cases hld : lookupA rm d with
            | none =>
              rw [hld] at hb
              simp at hb
            | some s0 =>
              rw [hld] at hb
              exact Or.inl ⟨s0, had ▸ hld, hb⟩
          · exact Or.inr ⟨by rw [had]; exact List.mem_cons_self d t, hbeq⟩
        · rw [if_neg had] at hl
          exact Or.inl ⟨refs, hl, hb⟩
      · exact Or.inr ⟨List.mem_cons_of_mem d ha, hbnm⟩
    · rintro (⟨refs, hl, hb⟩ | ⟨ha, hbnm⟩)
      · by_cases had : a = d
        · refine Or.inl ⟨insertUnique ((lookupA rm d).getD []) nm, ?_, ?_⟩
          · rw [lookupA_addToSetA, if_pos had]
          · rw [mem_insertUnique]
            left
            rw [← had, hl]
            exact hb
        · refine Or.inl ⟨refs, ?_, hb⟩
          rw [lookupA_addToSetA, if_neg had]
          exact hl
      · rcases List.mem_cons.mp ha with heq | hat
        · refine Or.inl ⟨insertUnique ((lookupA rm d).getD []) nm, ?_, ?_⟩
          · rw [lookupA_addToSetA, if_pos heq]
          · rw [mem_insertUnique]
            right
            exact hbnm
        · exact Or.inr ⟨hat, hbnm⟩

theorem mem_fst_iff_get {α : Type} (l : List (String × α)) (x : String) :
    x ∈ l.map Prod.fst ↔ ∃ i y, l.get? i = some (x, y) := by
  rw [List.mem_map]
  constructor
  · rintro ⟨⟨x', y⟩, hmem, rfl⟩
    obtain ⟨i, hi⟩ := List.mem_iff_get?.mp hmem
    exact ⟨i, y, hi⟩
  · rintro ⟨i, y, hi⟩
    exact ⟨(x, y), List.get?_mem hi, rfl⟩

/-! ### C6: the analyzer computes exactly the backward references -/

theorem DepInv_nil : DepInv [] { depMap := [], refMap := [] } := by
  refine ⟨rfl, ?_, ?_⟩
  · intro a b
    constructor
    · rintro ⟨info, hinfo, _⟩
      exact absurd hinfo (by simp [lookupA])
    · rintro ⟨hba, i, j, ai, bi, hij, hgi, hgj, _⟩
      simp at hgi
  · intro a b
    constructor
    · rintro ⟨refs, hrefs, _⟩
      exact absurd hrefs (by simp [lookupA])
    · rintro ⟨info, hinfo, _⟩
      exact absurd hinfo (by simp [lookupA])

theorem DepInv_step (done : List (String × Option Expr)) (s : DepState)
    (nm : String) (ini : Option Expr)
    (hinv : DepInv done s) (hfresh : ¬ nm ∈ done.map Prod.fst) :
    DepInv (done ++ [(nm, ini)]) (analyzeStep s nm ini) := by
  obtain ⟨hkeys, hdep, href⟩ := hinv
  have hlnone : lookupA s.depMap nm = none := by
    rw [lookupA_none_iff, hkeys]
    exact hfresh
  have hmemdeps : ∀ b : String,
      b ∈ dedupKeepFirst ((declIdents ini).filter (fun n => n ≠ nm ∧ hasKeyA s.depMap n)) ↔
        (b ∈ declIdents ini ∧ b ≠ nm ∧ b ∈ done.map Prod.fst) := by
    intro b
    rw [mem_dedupKeepFirst, List.mem_filter]
    simp only [decide_eq_true_eq]
    rw [hasKeyA_iff_mem, hkeys]
  unfold DepInv analyzeStep
  dsimp only
  refine ⟨?_, ?_, ?_⟩
  · rw [keysA_setA_fresh _ _ _ hlnone, hkeys, List.map_append]
    rfl
  · intro a b
    rw [lookupA_setA]
    by_cases han : a = nm
    · rw [if_pos han]
      constructor
      · rintro ⟨info, hinfo, hb⟩
        injection hinfo with h2
        subst h2
        obtain ⟨hbid, hbne, hbmem⟩ := (hmemdeps b).mp hb
        obtain ⟨i, bi, hbi⟩ := (mem_fst_iff_get done b).mp hbmem
        have hilen : i < done.length := (List.get?_eq_some.mp hbi).1
        refine ⟨?_, i, done.length, ini, bi, hilen, ?_, ?_, hbid⟩
        · rw [han]
          exact hbne
        · rw [List.get?_append hilen]
          exact hbi
        · rw [han]
          exact List.get?_concat_length done (nm, ini)
      · rintro ⟨hba, i, j, ai, bi, hij, hgi, hgj, hbini⟩
        refine ⟨_, rfl, ?_⟩
        apply (hmemdeps b).mpr
        have hjlen : j < done.length + 1 := by
          have h3 := (List.get?_eq_some.mp hgj).1
          simpa using h3
        by_cases hj : j < done.length
        · rw [List.get?_append hj] at hgj
          exact absurd ((mem_fst_iff_get done a).mpr ⟨j, ai, hgj⟩) (by rw [han]; exact hfresh)
        · have hjeq : j = done.length := by omega
          subst hjeq
          rw [List.get?_concat_length] at hgj
          injection hgj with hpair
          have hA : nm = a := congrArg Prod.fst hpair
          have hB : ini = ai := congrArg Prod.snd hpair
          have hilen : i < done.length := hij
          rw [List.get?_append hilen] at hgi
          refine ⟨?_, ?_, ?_⟩
          · rw [hB]
            exact hbini
          · intro hbn
            exact hba (hbn.trans hA)
          · exact (mem_fst_iff_get done b).mpr ⟨i, bi, hgi⟩
    · rw [if_neg han]
      rw [hdep a b]
      constructor
      · rintro ⟨hba, i, j, ai, bi, hij, hgi, hgj, hbini⟩
        have hilen : i < done.length := (List.get?_eq_some.mp hgi).1
        have hjlen : j < done.length := (List.get?_eq_some.mp hgj).1
        refine ⟨hba, i, j, ai, bi, hij, ?_, ?_, hbini⟩
        · rw [List.get?_append hilen]
          exact hgi
        · rw [List.get?_append hjlen]
          exact hgj
      · rintro ⟨hba, i, j, ai, bi, hij, hgi, hgj, hbini⟩
        have hjlen : j < done.length + 1 := by
          have h3 := (List.get?_eq_some.mp hgj).1
          simpa using h3
        by_cases hj : j < done.length
        · have hi : i < done.length := lt_trans hij hj
          rw [List.get?_append hi] at hgi
          rw [List.get?_append hj] at hgj
          exact ⟨hba, i, j, ai, bi, hij, hgi, hgj, hbini⟩
        · have hjeq : j = done.length := by omega
          subst hjeq
          rw [List.get?_concat_length] at hgj
          injection hgj with hpair
          exact absurd (congrArg Prod.fst hpair) (fun hh => han hh.symm)
  · intro a b
    rw [lookupA_foldl_addToSetA]
    rw [href a b]
    rw [lookupA_setA]
    by_cases hbn : b = nm
    · rw [if_pos hbn]
      constructor
      · rintro (⟨info, hinfo, ha⟩ | ⟨ha, hb2⟩)
        · rw [hbn, hlnone] at hinfo
          exact Option.noConfusion hinfo
        · exact ⟨_, rfl, ha⟩
      · rintro ⟨info, hinfo, ha⟩
        injection hinfo with h2
        subst h2
        exact Or.inr ⟨ha, hbn⟩
    · rw [if_neg hbn]
      constructor
      · rintro (⟨info, hinfo, ha⟩ | ⟨ha, hb2⟩)
        · exact ⟨info, hinfo, ha⟩
        · exact absurd hb2 hbn
      · rintro ⟨info, hinfo, ha⟩
        exact Or.inl ⟨info, hinfo, ha⟩

theorem DepInv_analyzeList :
    ∀ (l done : List (String × Option Expr)) (s : DepState),
      DepInv done s →
      ((done ++ l).map Prod.fst).Nodup →
      DepInv (done ++ l) (analyzeList s l) := by
  intro l
  induction l with
  | nil =>
    intro done s hinv _
    simpa [analyzeList] using hinv
  | cons p t ih =>
    intro done s hinv hnd
    obtain ⟨nm, ini⟩ := p
    simp only [analyzeList]
    have hfresh : ¬ nm ∈ done.map Prod.fst := by
      intro hmem
      rw [List.map_append] at hnd
      have hdisj := (List.nodup_append.mp hnd).2.2
      exact hdisj hmem (by simp)
    have hstep := DepInv_step done s nm ini hinv hfresh
    have hmain := ih (done ++ [(nm, ini)]) (analyzeStep s nm ini) hstep (by simpa using hnd)
    simpa using hmain

theorem DepInv_analyze (stmts : List Stmt)
    (hnd : ((collectDeclarators stmts).map Prod.fst).Nodup) :
    DepInv (collectDeclarators stmts) (analyzeDependencies stmts) := by
  have hmain := DepInv_analyzeList (collectDeclarators stmts) [] { depMap := [], refMap := [] }
    DepInv_nil (by simpa using hnd)
  simpa [analyzeDependencies] using hmain

theorem depsOfD_iff {st : DepState} {done : List (String × Option Expr)}
    (hinv : DepInv done st) (a b : String) :
    b ∈ depsOfD st a ↔ BackEdge done a b := by
  rw [← hinv.2.1 a b]
  unfold depsOfD
  cases hl : lookupA st.depMap a with
  | none => simp
  | some info => simp

theorem refsOf_iff {st : DepState} {done : List (String × Option Expr)}
    (hinv : DepInv done st) (a b : String) :
    b ∈ refsOf st a ↔ BackEdge done b a := by
  rw [← hinv.2.1 b a, ← hinv.2.2 a b]
  unfold refsOf
  cases hl : lookupA st.refMap a with
  | none => simp
  | some refs => simp

theorem adjA_iff {st : DepState} {done : List (String × Option Expr)}
    (hinv : DepInv done st) (a b : String) :
    b ∈ adjA st a ↔ SymEdge done a b := by
  unfold adjA SymEdge
  rw [List.mem_append, depsOfD_iff hinv a b, refsOf_iff hinv a b]

theorem adjA_mem_keys {st : DepState} {done : List (String × Option Expr)}
    (hinv : DepInv done st) (a b : String) (h : b ∈ adjA st a) :
    b ∈ done.map Prod.fst ∧ a ∈ done.map Prod.fst := by
  rw [adjA_iff hinv] at h
  rcases h with ⟨hba, i, j, ai, bi, hij, hgi, hgj, _⟩ | ⟨hba, i, j, ai, bi, hij, hgi, hgj, _⟩
  · exact ⟨(mem_fst_iff_get done b).mpr ⟨i, bi, hgi⟩, (mem_fst_iff_get done a).mpr ⟨j, ai, hgj⟩⟩
  · exact ⟨(mem_fst_iff_get done b).mpr ⟨j, ai, hgj⟩, (mem_fst_iff_get done a).mpr ⟨i, bi, hgi⟩⟩

theorem adjP_symm {st : DepState} {done : List (String × Option Expr)}
    (hinv : DepInv done st) (a b : String) (h : AdjP st a b) : AdjP st b a := by
  unfold AdjP at h ⊢
  rw [adjA_iff hinv] at h ⊢
  unfold SymEdge at h ⊢
  tauto

theorem rtg_symm {α : Type} {r : α → α → Prop} (hs : ∀ a b, r a b → r b a) :
    ∀ {a b : α}, Relation.ReflTransGen r a b → Relation.ReflTransGen r b a := by
  intro a b h
  induction h with
  | refl => exact .refl
  | tail h1 h2 ih => exact Relation.ReflTransGen.head (hs _ _ h2) ih

theorem rtg_congr {α : Type} {r s : α → α → Prop} (h : ∀ a b, r a b ↔ s a b) :
    ∀ (a b : α), Relation.ReflTransGen r a b ↔ Relation.ReflTransGen s a b := by
  intro a b
  constructor
  · intro hr
    induction hr with
    | refl => exact .refl
    | tail h1 h2 ih => exact ih.tail ((h _ _).mp h2)
  · intro hr
    induction hr with
    | refl => exact .refl
    | tail h1 h2 ih => exact ih.tail ((h _ _).mpr h2)

theorem closed_rtg (st : DepState) (v : List String)
    (hcl : ∀ x ∈ v, ∀ y ∈ adjA st x, y ∈ v) :
    ∀ (a b : String), Relation.ReflTransGen (AdjP st) a b → a ∈ v → b ∈ v := by
  intro a b h
  induction h with
  | refl => exact id
  | tail h1 h2 ih =>
    intro ha
    exact hcl _ (ih ha) _ h2

/-! ### C6: the depth-first search collects exactly the reachable schemas -/

theorem ccFold_delta (st : DepState) (fuel : Nat)
    (hcc : ∀ nm v g, ∃ d, collectConnected st fuel nm (v, g) = (v ++ d, g ++ d)) :
    ∀ (l : List String) (v g : List String),
      ∃ d, l.foldl (fun vg x => collectConnected st fuel x vg) (v, g) = (v ++ d, g ++ d) := by
  intro l
  induction l with
  | nil =>
    intro v g
    exact ⟨[], by simp⟩
  | cons x t ih =>
    intro v g
    simp only [List.foldl_cons]
    obtain ⟨d1, hd1⟩ := hcc x v g
    rw [hd1]
    obtain ⟨d2, hd2⟩ := ih (v ++ d1) (g ++ d1)
    rw [hd2]
    exact ⟨d1 ++ d2, by simp [List.append_assoc]⟩

theorem cc_delta (st : DepState) :
    ∀ (fuel : Nat) (nm : String) (v g : List String),
      ∃ d, collectConnected st fuel nm (v, g) = (v ++ d, g ++ d) := by
  intro fuel
  induction fuel with
  | zero =>
    intro nm v g
    exact ⟨[], by simp [collectConnected]⟩
  | succ f ih =>
    intro nm v g
    simp only [collectConnected]
    split
    · exact ⟨[], by simp⟩
    · obtain ⟨d, hd⟩ := ccFold_delta st f ih (adjA st nm) (v ++ [nm]) (g ++ [nm])
      rw [hd]
      exact ⟨[nm] ++ d, by simp [List.append_assoc]⟩

theorem ccFold_sound (st : DepState) (fuel : Nat)
    (hcc : ∀ nm v g v' g', collectConnected st fuel nm (v, g) = (v', g') →
      ∀ x, x ∈ v' → x ∈ v ∨ Relation.ReflTransGen (AdjP st) nm x) :
    ∀ (l : List String) (v g v' g' : List String),
      l.foldl (fun vg x => collectConnected st fuel x vg) (v, g) = (v', g') →
      ∀ x, x ∈ v' → x ∈ v ∨ ∃ y ∈ l, Relation.ReflTransGen (AdjP st) y x := by
  intro l
  induction l with
  | nil =>
    intro v g v' g' h x hx
    injection h with h1 h2
    subst h1
    exact Or.inl hx
  | cons a t ih =>
    intro v g v' g' h x hx
    simp only [List.foldl_cons] at h
    cases hca : collectConnected st fuel a (v, g) with
    | mk vA gA =>
      rw [hca] at h
      rcases ih vA gA v' g' h x hx with hxva | ⟨y, hy, hr⟩
      · rcases hcc a v g vA gA hca x hxva with hxv | hr
        · exact Or.inl hxv
        · exact Or.inr ⟨a, List.mem_cons_self a t, hr⟩
      · exact Or.inr ⟨y, List.mem_cons_of_mem a hy, hr⟩

theorem cc_sound (st : DepState) :
    ∀ (fuel : Nat) (nm : String) (v g v' g' : List String),
      collectConnected st fuel nm (v, g) = (v', g') →
      ∀ x, x ∈ v' → x ∈ v ∨ Relation.ReflTransGen (AdjP st) nm x := by
  intro fuel
  induction fuel with
  | zero =>
    intro nm v g v' g' h x hx
    simp only [collectConnected] at h
    injection h with h1 _
    subst h1
    exact Or.inl hx
  | succ f ih =>
    intro nm v g v' g' h x hx
    simp only [collectConnected] at h
    split at h
    · injection h with h1 _
      subst h1
      exact Or.inl hx
    · rcases ccFold_sound st f ih (adjA st nm) (v ++ [nm]) (g ++ [nm]) v' g' h x hx with hxv | ⟨y, hy, hr⟩
      · rcases List.mem_append.mp hxv with hxv2 | hxnm
        · exact Or.inl hxv2
        · have hxeq : x = nm := by simpa using hxnm
          subst hxeq
          exact Or.inr Relation.ReflTransGen.refl
      · exact Or.inr (Relation.ReflTransGen.head (show AdjP st nm y from hy) hr)

theorem ccFold_complete (st : DepState) (keys : List String)
    (hadj : ∀ a b, b ∈ adjA st a → b ∈ keys ∧ a ∈ keys) (fuel : Nat)
    (hcc : ∀ nm v g v' g', collectConnected st fuel nm (v, g) = (v', g') →
      v.Nodup → (∀ x ∈ v, x ∈ keys) → nm ∈ keys → keys.length < fuel + v.length →
      v'.Nodup ∧ (∀ x ∈ v', x ∈ keys) ∧ nm ∈ v' ∧
        (∀ x ∈ v', x ∉ v → ∀ y ∈ adjA st x, y ∈ v')) :
    ∀ (l : List String) (v g v' g' : List String),
      l.foldl (fun vg x => collectConnected st fuel x vg) (v, g) = (v', g') →
      v.Nodup → (∀ x ∈ v, x ∈ keys) → (∀ x ∈ l, x ∈ keys) →
      keys.length < fuel + v.length →
      v'.Nodup ∧ (∀ x ∈ v', x ∈ keys) ∧ (∀ x ∈ v, x ∈ v') ∧ (∀ y ∈ l, y ∈ v') ∧
        (∀ x ∈ v', x ∉ v → ∀ y ∈ adjA st x, y ∈ v') := by
  intro l
  induction l with
  | nil =>
    intro v g v' g' h hnd hvk _ _
    injection h with h1 _
    subst h1
    refine ⟨hnd, hvk, fun x hx => hx, by simp, ?_⟩
    intro x hx hnx
    exact absurd hx hnx
  | cons a t ih =>
    intro v g v' g' h hnd hvk hl hlen
    simp only [List.foldl_cons] at h
    cases hca : collectConnected st fuel a (v, g) with
    | mk vA gA =>
      rw [hca] at h
      obtain ⟨hAnd, hAk, hAnm, hAcl⟩ :=
        hcc a v g vA gA hca hnd hvk (hl a (List.mem_cons_self a t)) hlen
      obtain ⟨d1, hd1⟩ := cc_delta st fuel a v g
      rw [hca] at hd1
      injection hd1 with hdv hdg
      have hlenA : keys.length < fuel + vA.length := by
        rw [hdv, List.length_append]
        omega
      obtain ⟨hBnd, hBk, hBmono, hBl, hBcl⟩ :=
        ih vA gA v' g' h hAnd hAk (fun x hx => hl x (List.mem_cons_of_mem a hx)) hlenA
      refine ⟨hBnd, hBk, ?_, ?_, ?_⟩
      · intro x hx
        exact hBmono x (hdv ▸ List.mem_append_left d1 hx)
      · intro y hy
        rcases List.mem_cons.mp hy with rfl | hyt
        · exact hBmono y hAnm
        · exact hBl y hyt
      · intro x hx hnx
        by_cases hxa : x ∈ vA
        · intro y hy
          exact hBmono y (hAcl x hxa hnx y hy)
        · exact hBcl x hx hxa
termination_by l => l.length

theorem cc_complete (st : DepState) (keys : List String)
    (hadj : ∀ a b, b ∈ adjA st a → b ∈ keys ∧ a ∈ keys) :
    ∀ (fuel : Nat) (nm : String) (v g v' g' : List String),
      collectConnected st fuel nm (v, g) = (v', g') →
      v.Nodup → (∀ x ∈ v, x ∈ keys) → nm ∈ keys →
      keys.length < fuel + v.length →
      v'.Nodup ∧ (∀ x ∈ v', x ∈ keys) ∧ nm ∈ v' ∧
        (∀ x ∈ v', x ∉ v → ∀ y ∈ adjA st x, y ∈ v') := by
  intro fuel
  induction fuel with
  | zero =>
    intro nm v g v' g' h hnd hvk hnm hlen
    exfalso
    have hsub : v ⊆ keys := fun {x} hx => hvk x hx
    have hle := (hnd.subperm hsub).length_le
    omega
  | succ f ih =>
    intro nm v g v' g' h hnd hvk hnm hlen
    simp only [collectConnected] at h
    split at h
    · rename_i hin
      injection h with h1 _
      subst h1
      refine ⟨hnd, hvk, hin, ?_⟩
      intro x hx hnx
      exact absurd hx hnx
    · rename_i hnin
      have hnd1 : (v ++ [nm]).Nodup := by
        rw [List.nodup_append]
        refine ⟨hnd, List.nodup_singleton nm, ?_⟩
        intro x hx hx2
        simp at hx2
        subst hx2
        exact hnin hx
      have hvk1 : ∀ x ∈ v ++ [nm], x ∈ keys := by
        intro x hx
        rcases List.mem_append.mp hx with h1 | h1
        · exact hvk x h1
        · simp at h1
          subst h1
          exact hnm
      have hlen1 : keys.length < f + (v ++ [nm]).length := by
        simp
        omega
      have hadjn : ∀ y ∈ adjA st nm, y ∈ keys := fun y hy => (hadj nm y hy).1
      obtain ⟨hBnd, hBk, hBmono, hBl, hBcl⟩ :=
        ccFold_complete st keys hadj f ih (adjA st nm) (v ++ [nm]) (g ++ [nm]) v' g' h
          hnd1 hvk1 hadjn hlen1
      refine ⟨hBnd, hBk, ?_, ?_⟩
      · exact hBmono nm (List.mem_append_right v (by simp))
      · intro x hx hnx y hy
        by_cases hxnm : x = nm
        · subst hxnm
          exact hBl y hy
        · have hxv1 : x ∉ v ++ [nm] := by
            intro hmem
            rcases List.mem_append.mp hmem with h1 | h1
            · exact hnx h1
            · simp at h1
              exact hxnm h1
          exact hBcl x hx hxv1 y hy

/-! ### C6: the grouping loop partitions the keys into components -/

theorem groupsLoop_mono (st : DepState) :
    ∀ (todo v : List String) (acc : List (List String)) (g : List String),
      g ∈ acc → g ∈ groupsLoop st todo v acc := by
  intro todo
  induction todo with
  | nil =>
    intro v acc g hg
    exact hg
  | cons k t ih =>
    intro v acc g hg
    simp only [groupsLoop]
    split
    · exact ih _ _ _ hg
    · exact ih _ _ _ (List.mem_append_left _ hg)

theorem groupsLoop_inv (st : DepState) (keys : List String)
    (hadj : ∀ a b, b ∈ adjA st a → b ∈ keys ∧ a ∈ keys)
    (hsym : ∀ a b, AdjP st a b → AdjP st b a)
    (hbound : keys.length ≤ st.depMap.length) :
    ∀ (todo v : List String) (acc : List (List String)),
      v.Nodup → (∀ x ∈ v, x ∈ keys) → (∀ k ∈ todo, k ∈ keys) →
      (∀ x, x ∈ v ↔ ∃ g ∈ acc, x ∈ g) →
      (∀ x ∈ v, ∀ y ∈ adjA st x, y ∈ v) →
      (∀ g ∈ acc, ∀ a ∈ g, ∀ b ∈ g, Relation.ReflTransGen (AdjP st) a b) →
      (∀ i j gi gj, acc.get? i = some gi → acc.get? j = some gj → i ≠ j →
        ∀ a ∈ gi, ∀ b ∈ gj, ¬ Relation.ReflTransGen (AdjP st) a b) →
      (∀ k ∈ todo, ∃ g ∈ groupsLoop st todo v acc, k ∈ g) ∧
      (∀ g ∈ groupsLoop st todo v acc, ∀ a ∈ g, a ∈ keys) ∧
      (∀ g ∈ groupsLoop st todo v acc, ∀ a ∈ g, ∀ b ∈ g,
        Relation.ReflTransGen (AdjP st) a b) ∧
      (∀ i j gi gj, (groupsLoop st todo v acc).get? i = some gi →
        (groupsLoop st todo v acc).get? j = some gj → i ≠ j →
        ∀ a ∈ gi, ∀ b ∈ gj, ¬ Relation.ReflTransGen (AdjP st) a b) := by
  intro todo
  induction todo with
  | nil =>
    intro v acc hnd hvk htodo hcorr hcl hconn hdisc
    refine ⟨?_, ?_, ?_, ?_⟩
    · intro k hk
      exact absurd hk (List.not_mem_nil k)
    · intro g hg a ha
      exact hvk a ((hcorr a).mpr ⟨g, hg, ha⟩)
    · exact hconn
    · exact hdisc
  | cons k t ih =>
    intro v acc hnd hvk htodo hcorr hcl hconn hdisc
    by_cases hkv : k ∈ v
    · have hgl : groupsLoop st (k :: t) v acc = groupsLoop st t v acc := by
        simp only [groupsLoop]
        rw [if_pos hkv]
      rw [hgl]
      obtain ⟨c1, c2, c3, c4⟩ :=
        ih v acc hnd hvk (fun x hx => htodo x (List.mem_cons_of_mem k hx)) hcorr hcl hconn hdisc
      refine ⟨?_, c2, c3, c4⟩
      intro k' hk'
      rcases List.mem_cons.mp hk' with rfl | hk2
      · obtain ⟨g, hg, hkg⟩ := (hcorr k').mp hkv
        exact ⟨g, groupsLoop_mono st t v acc g hg, hkg⟩
      · exact c1 k' hk2
    · cases hcc : collectConnected st (dfsFuel st) k (v, []) with
      | mk v1 g1 =>
        have hgl : groupsLoop st (k :: t) v acc = groupsLoop st t v1 (acc ++ [g1]) := by
          simp only [groupsLoop]
          rw [if_neg hkv, hcc]
        rw [hgl]
        obtain ⟨d, hd⟩ := cc_delta st (dfsFuel st) k v []
        rw [hcc] at hd
        injection hd with hdv hdg
        simp only [List.nil_append] at hdg
        have hlen : keys.length < dfsFuel st + v.length := by
          unfold dfsFuel
          omega
        obtain ⟨hnd1, hk1, hkin, hclrel⟩ :=
          cc_complete st keys hadj (dfsFuel st) k v [] v1 g1 hcc hnd hvk
            (htodo k (List.mem_cons_self k t)) hlen
        have hcl1 : ∀ x ∈ v1, ∀ y ∈ adjA st x, y ∈ v1 := by
          intro x hx y hy
          by_cases hxv : x ∈ v
          · rw [hdv]
            exact List.mem_append_left d (hcl x hxv y hy)
          · exact hclrel x hx hxv y hy
        have hg1sub : ∀ x ∈ g1, x ∈ v1 := by
          intro x hx
          rw [hdv]
          exact List.mem_append_right v (hdg ▸ hx)
        have hg1nv : ∀ x ∈ g1, x ∉ v := by
          intro x hx hxv
          have hnd2 := hnd1
          rw [hdv] at hnd2
          exact (List.nodup_append.mp hnd2).2.2 hxv (hdg ▸ hx)
        have hreach : ∀ x ∈ g1, Relation.ReflTransGen (AdjP st) k x := by
          intro x hx
          rcases cc_sound st (dfsFuel st) k v [] v1 g1 hcc x (hg1sub x hx) with hxv | hr
          · exact absurd hxv (hg1nv x hx)
          · exact hr
        have hconn1 : ∀ a ∈ g1, ∀ b ∈ g1, Relation.ReflTransGen (AdjP st) a b := by
          intro a ha b hb
          exact (rtg_symm hsym (hreach a ha)).trans (hreach b hb)
        have hkg1 : k ∈ g1 := by
          have hkv1 := hkin
          rw [hdv] at hkv1
          rcases List.mem_append.mp hkv1 with h1 | h1
          · exact absurd h1 hkv
          · rw [hdg]
            exact h1
        have hcorr1 : ∀ x, x ∈ v1 ↔ ∃ g ∈ acc ++ [g1], x ∈ g := by
          intro x
          constructor
          · intro hx
            rw [hdv] at hx
            rcases List.mem_append.mp hx with h1 | h1
            · obtain ⟨g, hg, hxg⟩ := (hcorr x).mp h1
              exact ⟨g, List.mem_append_left _ hg, hxg⟩
            · exact ⟨g1, List.mem_append_right _ (by simp), hdg ▸ h1⟩
          · rintro ⟨g, hg, hxg⟩
            rcases List.mem_append.mp hg with h1 | h1
            · rw [hdv]
              exact List.mem_append_left d ((hcorr x).mpr ⟨g, h1, hxg⟩)
            · have hge : g = g1 := by simpa using h1
              subst hge
              exact hg1sub x hxg
        have hsep : ∀ g ∈ acc, ∀ a ∈ g, ∀ b ∈ g1, ¬ Relation.ReflTransGen (AdjP st) a b := by
          intro g hg a ha b hb hr
          have hav : a ∈ v := (hcorr a).mpr ⟨g, hg, ha⟩
          have hbv : b ∈ v := closed_rtg st v hcl a b hr hav
          exact hg1nv b hb hbv
        have hacc : ∀ (n : Nat) (gn : List String), (acc ++ [g1]).get? n = some gn →
            acc.get? n = some gn ∨ (n = acc.length ∧ gn = g1) := by
          intro n gn hgn
          by_cases hn : n < acc.length
          · rw [List.get?_append hn] at hgn
            exact Or.inl hgn
          · have hlt : n < acc.length + 1 := by
              have h3 := (List.get?_eq_some.mp hgn).1
              simpa using h3
            have hneq : n = acc.length := by omega
            subst hneq
            rw [List.get?_concat_length] at hgn
            injection hgn with h2
            exact Or.inr ⟨rfl, h2.symm⟩
        have hdisc1 : ∀ i j gi gj, (acc ++ [g1]).get? i = some gi →
            (acc ++ [g1]).get? j = some gj → i ≠ j →
            ∀ a ∈ gi, ∀ b ∈ gj, ¬ Relation.ReflTransGen (AdjP st) a b := by
          intro i j gi gj hgi hgj hij a ha b hb hr
          rcases hacc i gi hgi with hi | ⟨hieq, hgieq⟩
          · rcases hacc j gj hgj with hj | ⟨hjeq, hgjeq⟩
            · exact hdisc i j gi gj hi hj hij a ha b hb hr
            · subst hgjeq
              exact hsep gi (List.get?_mem hi) a ha b hb hr
          · rcases hacc j gj hgj with hj | ⟨hjeq, hgjeq⟩
            · subst hgieq
              exact hsep gj (List.get?_mem hj) b hb a ha (rtg_symm hsym hr)
            · exact hij (hieq.trans hjeq.symm)
        have hconn2 : ∀ g ∈ acc ++ [g1], ∀ a ∈ g, ∀ b ∈ g,
            Relation.ReflTransGen (AdjP st) a b := by
          intro g hg
          rcases List.mem_append.mp hg with h1 | h1
          · exact hconn g h1
          · have hge : g = g1 := by simpa using h1
            subst hge
            exact hconn1
        obtain ⟨c1, c2, c3, c4⟩ :=
          ih v1 (acc ++ [g1]) hnd1 hk1 (fun x hx => htodo x (List.mem_cons_of_mem k hx))
            hcorr1 hcl1 hconn2 hdisc1
        refine ⟨?_, c2, c3, c4⟩
        intro k' hk'
        rcases List.mem_cons.mp hk' with rfl | hk2
        · exact ⟨g1, groupsLoop_mono st t v1 (acc ++ [g1]) g1
            (List.mem_append_right acc (by simp)), hkg1⟩
        · exact c1 k' hk2

/-- C6: refuted.  aSchema references bSchema, which is declared later; the
visit-time key check drops the forward reference, so the two schemas end in
two different groups although the claim's order-independent reference graph
connects them. -/
theorem C6_counterexample :
    getIndependentSchemaGroups (analyzeDependencies stmtsC6) = [["aSchema"], ["bSchema"]]
    ∧ ClaimEdge (collectDeclarators stmtsC6) "aSchema" "bSchema" := by
  refine ⟨by rfl, by decide, 0, 1, some aInitC6, some zStr, by rfl, by rfl, by decide⟩

/-- C6 (amended): the dependency analyzer records exactly the backward
references (an identifier in a declarator's initializer naming an earlier
collected declarator), and, for a cleaned tree with distinct declarator
names, the schema groups are exactly the connected components of the
undirected backward-reference graph: members of one group are pairwise
connected, members of distinct groups are never connected, and the groups
cover exactly the declared names. -/
theorem C6_amended (stmts : List Stmt)
    (hnd : ((collectDeclarators stmts).map Prod.fst).Nodup) :
    (∀ a b, b ∈ depsOfD (analyzeDependencies stmts) a ↔
        BackEdge (collectDeclarators stmts) a b)
    ∧ (∀ g ∈ getIndependentSchemaGroups (analyzeDependencies stmts), ∀ a ∈ g, ∀ b ∈ g,
        Relation.ReflTransGen (SymEdge (collectDeclarators stmts)) a b)
    ∧ (∀ i j gi gj,
        (getIndependentSchemaGroups (analyzeDependencies stmts)).get? i = some gi →
        (getIndependentSchemaGroups (analyzeDependencies stmts)).get? j = some gj →
        i ≠ j → ∀ a ∈ gi, ∀ b ∈ gj,
          ¬ Relation.ReflTransGen (SymEdge (collectDeclarators stmts)) a b)
    ∧ (∀ a, (∃ g ∈ getIndependentSchemaGroups (analyzeDependencies stmts), a ∈ g) ↔
        a ∈ (collectDeclarators stmts).map Prod.fst) := by
  have hinv := DepInv_analyze stmts hnd
  set st := analyzeDependencies stmts with hst
  set decls := collectDeclarators stmts with hdecls
  have hkeys : keysA st.depMap = decls.map Prod.fst := hinv.1
  have hadj : ∀ a b, b ∈ adjA st a → b ∈ keysA st.depMap ∧ a ∈ keysA st.depMap := by
    intro a b h
    have h2 := adjA_mem_keys hinv a b h
    rw [hkeys]
    exact h2
  have hsym : ∀ a b, AdjP st a b → AdjP st b a := fun a b h => adjP_symm hinv a b h
  have hbound : (keysA st.depMap).length ≤ st.depMap.length := by
    simp [keysA]
  have hrtg : ∀ a b, Relation.ReflTransGen (AdjP st) a b ↔
      Relation.ReflTransGen (SymEdge decls) a b :=
    rtg_congr (fun a b => adjA_iff hinv a b)
  obtain ⟨c1, c2, c3, c4⟩ :=
    groupsLoop_inv st (keysA st.depMap) hadj hsym hbound (keysA st.depMap) [] []
      List.nodup_nil (by intro x hx; exact absurd hx (List.not_mem_nil x))
      (fun k hk => hk)
      (by intro x; simp)
      (by intro x hx; exact absurd hx (List.not_mem_nil x))
      (by intro g hg; exact absurd hg (List.not_mem_nil g))
      (by intro i j gi gj hgi; simp at hgi)
  refine ⟨?_, ?_, ?_, ?_⟩
  · exact fun a b => depsOfD_iff hinv a b
  · intro g hg a ha b hb
    exact (hrtg a b).mp (c3 g hg a ha b hb)
  · intro i j gi gj hgi hgj hij a ha b hb hr
    exact c4 i j gi gj hgi hgj hij a ha b hb ((hrtg a b).mpr hr)
  · intro a
    constructor
    · rintro ⟨g, hg, hag⟩
      rw [← hkeys]
      exact c2 g hg a hag
    · intro ha
      exact c1 a (by rw [hkeys]; exact ha)

/-- C6 witness: the amended theorem applied to the two-schema fixture:
aSchema is covered by one of the computed groups. -/
theorem C6_witness :
    ∃ g ∈ getIndependentSchemaGroups (analyzeDependencies stmtsC6), "aSchema" ∈ g :=
  ((C6_amended stmtsC6 (by decide)).2.2.2 "aSchema").mpr (by decide)

end ZodSheriff
